import Mathlib

set_option maxRecDepth 10000

/-!
Verification of the helium-frontend localization core: a shallow embedding of
the translation store, the key minting and resolution algorithm, the source
rewriting engine of the component preview, and the runtime fallback resolver
embedded into generated code.  Strings are modelled as Lean `String`
(store side) and `List Char` (rewriter side); the ASCII-only character
predicates of the JavaScript regexes are modelled with the corresponding
ASCII predicates on `Char`.
-/

/-! ## Character classes and basic string helpers -/

/-- JavaScript regex whitespace class, restricted to its ASCII members. -/
def isWsJS (c : Char) : Bool :=
  c = ' ' || c = '\t' || c = '\n' || c = '\r' || c = '\x0b' || c = '\x0c'

/-- Character class `[A-Za-z0-9_]` used by the key-shaped regexes. -/
def alnumU (c : Char) : Bool := c.isAlphanum || c = '_'

/-- JavaScript regex `.` (dot without the s flag): any char except a line terminator. -/
def isDotAny (c : Char) : Bool :=
  !(c = '\n' || c = '\r' || c = '\u2028' || c = '\u2029')

/-- Embedding of `String.prototype.trim` (ASCII whitespace members). -/
def jsTrimL (l : List Char) : List Char :=
  ((l.dropWhile isWsJS).reverse.dropWhile isWsJS).reverse

/-- Embedding of `String.prototype.trim` on `String`. -/
def jsTrimS (s : String) : String := String.mk (jsTrimL s.toList)

/-- Embedding of `String.prototype.toLowerCase`, faithful on ASCII input. -/
def lowerS (s : String) : String := String.mk (s.toList.map Char.toLower)

/-- Association-list lookup modelling JavaScript object / Map read access. -/
def lookupA (tab : List (String × String)) (k : String) : Option String :=
  (tab.find? (fun p => p.1 == k)).map (fun p => p.2)

/-- Embedding of `Map.prototype.set`: replace the value in place if the key is
present, otherwise append the pair at the end. -/
def mapInsert (tab : List (String × String)) (k v : String) : List (String × String) :=
  if (tab.find? (fun p => p.1 == k)).isSome then
    tab.map (fun p => if p.1 == k then (p.1, v) else p)
  else
    tab ++ [(k, v)]

/-- Embedding of the Map constructor applied to a list of pairs: repeated
`set`, so a later duplicate key overwrites the value at the first position. -/
def mapFromPairs (l : List (String × String)) : List (String × String) :=
  l.foldl (fun acc p => mapInsert acc p.1 p.2) []

/-! ## Runtime fallback resolver (the `__i18n` preamble of ComponentPreview)

The preamble is produced by a JavaScript template literal; inside a template
literal the escape `\.` denotes the plain character `.`, so the regex that
reaches the generated code is `^[A-Za-z]+(.[A-Za-z0-9_]+)+$` with an
UNESCAPED dot that matches any character except a line terminator.  The
matcher below embeds that emitted regex with its full backtracking
semantics: `shapeGo true` is positioned before the one-character separator of
a group, `shapeGo false` is inside the required `[A-Za-z0-9_]+` run, and
alternatives explore every way of splitting runs. -/

def shapeGo : Bool → List Char → Bool
  | _, [] => false
  | true, c :: rest => isDotAny c && shapeGo false rest
  | false, a :: t => alnumU a && (t.isEmpty || shapeGo true t || shapeGo false t)

/-- Leading `[A-Za-z]+` of the emitted shape regex, then at least one group. -/
def lettersGo : List Char → Bool
  | [] => false
  | c :: rest => c.isAlpha && (shapeGo true rest || lettersGo rest)

/-- The key-shape test actually performed by the generated preview code. -/
def emittedShape (k : String) : Bool := lettersGo k.toList

/-- The literal-dot shape `[A-Za-z]+(\.[A-Za-z0-9_]+)+` that the spec calls
word(.word)+ : same matcher but the group separator must be a dot. -/
def dottedGo : Bool → List Char → Bool
  | _, [] => false
  | true, c :: rest => decide (c = '.') && dottedGo false rest
  | false, a :: t => alnumU a && (t.isEmpty || dottedGo true t || dottedGo false t)

/-- Leading letters of the literal-dot shape. -/
def lettersDotGo : List Char → Bool
  | [] => false
  | c :: rest => c.isAlpha && (dottedGo true rest || lettersDotGo rest)

/-- The dotted-namespace shape word(.word)+ as written in the specification. -/
def specDottedShape (k : String) : Bool := lettersDotGo k.toList

/-- Embedding of `k.split(".").pop()`: the segment after the last dot. -/
def lastSeg (l : List Char) : List Char :=
  (l.reverse.takeWhile (fun c => c ≠ '.')).reverse

/-- Embedding of `(last.charAt(0).toUpperCase() + last.slice(1)).replace(/_/g, " ")`. -/
def deriveLabel (l : List Char) : List Char :=
  (match l with
    | [] => []
    | c :: t => c.toUpper :: t).map (fun c => if c = '_' then ' ' else c)

/-- Third branch of the resolver: derived label when the emitted shape regex
matches and the last segment is nonempty, otherwise the key itself. -/
def i18nDerived (k : String) : String :=
  if emittedShape k then
    let last := lastSeg k.toList
    if last.isEmpty then k else String.mk (deriveLabel last)
  else k

/-- English-table step of the resolver. -/
def i18nEnStep (en : List (String × String)) (k : String) : String :=
  match lookupA en k with
  | some v => if v = "" then i18nDerived k else v
  | none => i18nDerived k

/-- The embedded `__i18n` function: current-locale table, then English table,
then derived label, then the key itself.  A JSON-decoded table never holds
null, so the undefined and null checks of the source both map to `none`. -/
def i18nResolve (tx en : List (String × String)) (k : String) : String :=
  match lookupA tx k with
  | some v => if v = "" then i18nEnStep en k else v
  | none => i18nEnStep en k

/-! ## Translation store (client database functions of the editor module)

The persisted base64 SQLite image is modelled as the list of rows it encodes;
`localizations_db` is the `snapshot` field and the separate durable counter
`localizations_db_version` is the `version` field.  `datetime(now)` values
are passed in as an explicit `now` argument. -/

structure LocalizationEntry where
  id : String
  key : String
  en : String
  es : String
  fr : String
  de : String
  ja : String
  zh : String
  created_at : String
  updated_at : String
deriving DecidableEq

/-- Argument type of createLocalization: an entry without the timestamps. -/
structure LocalizationInput where
  id : String
  key : String
  en : String
  es : String
  fr : String
  de : String
  ja : String
  zh : String
deriving DecidableEq

structure DBState where
  entries : List LocalizationEntry
  snapshot : Option (List LocalizationEntry)
  version : Option String
deriving DecidableEq

/-- Embedding of saveDatabaseToLocalStorage: re-encodes the whole table into
the single durable key.  It writes only `localizations_db`; the version
counter is untouched. -/
def saveDatabaseToLocalStorage (st : DBState) : DBState :=
  { st with snapshot := some st.entries }

/-- Embedding of createLocalization: INSERT OR IGNORE on a table whose id is
the primary key and whose key column is UNIQUE, then a full snapshot save. -/
def createLocalization (now : String) (e : LocalizationInput) (st : DBState) : DBState :=
  let conflict := st.entries.any (fun x => x.id = e.id || x.key = e.key)
  let entries :=
    if conflict then st.entries
    else st.entries ++ [⟨e.id, e.key, e.en, e.es, e.fr, e.de, e.ja, e.zh, now, now⟩]
  saveDatabaseToLocalStorage { st with entries := entries }

def validFields : List String := ["key", "en", "es", "fr", "de", "ja", "zh"]

/-- One-column SET clause of updateLocalization, plus the updated timestamp. -/
def setEntryField (field value now : String) (x : LocalizationEntry) : LocalizationEntry :=
  let y :=
    if field = "key" then { x with key := value }
    else if field = "en" then { x with en := value }
    else if field = "es" then { x with es := value }
    else if field = "fr" then { x with fr := value }
    else if field = "de" then { x with de := value }
    else if field = "ja" then { x with ja := value }
    else if field = "zh" then { x with zh := value }
    else x
  { y with updated_at := now }

/-- Embedding of updateLocalization: reject a field outside the fixed list,
otherwise UPDATE the row with the given id and save the snapshot. -/
def updateLocalization (now id field value : String) (st : DBState) :
    Except String DBState :=
  if validFields.contains field then
    .ok (saveDatabaseToLocalStorage
      { st with entries :=
          st.entries.map (fun x => if x.id = id then setEntryField field value now x else x) })
  else
    .error ("Invalid field: " ++ field)

/-- Partial translations object accepted by updateLocalizationByKey. -/
structure TransUpdates where
  es : Option String
  fr : Option String
  de : Option String
  ja : Option String
  zh : Option String
deriving DecidableEq

/-- Embedding of updateLocalizationByKey: collect the SET clauses of the
locale fields that are provided; if none is provided return before issuing
any write; otherwise UPDATE the rows with the given key and save. -/
def updateLocalizationByKey (now k : String) (tr : TransUpdates) (st : DBState) : DBState :=
  if tr.es.isNone && tr.fr.isNone && tr.de.isNone && tr.ja.isNone && tr.zh.isNone then st
  else
    saveDatabaseToLocalStorage
      { st with entries :=
          st.entries.map (fun x =>
            if x.key = k then
              { x with
                  es := tr.es.getD x.es
                  fr := tr.fr.getD x.fr
                  de := tr.de.getD x.de
                  ja := tr.ja.getD x.ja
                  zh := tr.zh.getD x.zh
                  updated_at := now }
            else x) }

/-- Embedding of deleteLocalization: DELETE by id then save the snapshot. -/
def deleteLocalization (id : String) (st : DBState) : DBState :=
  saveDatabaseToLocalStorage { st with entries := st.entries.filter (fun x => x.id ≠ id) }

def validLocales : List String := ["en", "es", "fr", "de", "ja", "zh"]

/-- Column selected by `SELECT key, locale FROM localizations`. -/
def localeField (locale : String) (x : LocalizationEntry) : String :=
  if locale = "en" then x.en
  else if locale = "es" then x.es
  else if locale = "fr" then x.fr
  else if locale = "de" then x.de
  else if locale = "ja" then x.ja
  else x.zh

/-- Embedding of getTranslations: reject an unsupported locale, otherwise the
key to value map of that locale column.  The operation issues only a SELECT,
so it is a pure function of the state. -/
def getTranslations (locale : String) (st : DBState) : Except String (List (String × String)) :=
  if validLocales.contains locale then
    .ok (st.entries.map (fun x => (x.key, localeField locale x)))
  else
    .error ("Invalid locale: " ++ locale)

/-! ## Claim C1: runtime fallback resolver -/

/-- C1: the claim states that when the key matches the dotted-namespace shape
word(.word)+ a derived label is returned and OTHERWISE the key is returned
unchanged.  The generated resolver instead tests the emitted regex whose dot
is unescaped (the template literal collapses the escape), so the key
"hi there" with both tables empty, which does NOT have the dotted shape,
nevertheless returns the derived label "Hi there" instead of "hi there".
This theorem evaluates the embedded resolver at that failing input and shows
that the literal-dot shape of the specification rejects the input. -/
theorem C1_resolver_unescaped_dot_bug :
    i18nResolve [] [] "hi there" = "Hi there" ∧
    specDottedShape "hi there" = false ∧
    emittedShape "hi there" = true := by decide

/-! ## Claim C4: version marker on mutations -/

def c4Entry : LocalizationEntry :=
  ⟨"nav-1", "navigation.home", "Home", "Inicio", "Accueil", "Startseite",
   "ホーム", "首页", "t0", "t0"⟩

def c4State : DBState := ⟨[c4Entry], some [c4Entry], some "100"⟩

/-- C4 counterexample: deleting an entry rewrites the snapshot and changes the
table, but the durable version counter read by the observers is untouched,
contradicting the claim that every mutating store operation increments it. -/
theorem C4_delete_leaves_version_marker :
    (deleteLocalization "nav-1" c4State).version = c4State.version ∧
    (deleteLocalization "nav-1" c4State).entries ≠ c4State.entries := by decide

/-- C4 amended: every mutating localization-store operation persists the full
snapshot (the by-key update only when at least one locale field is provided),
and none of them modifies the version marker. -/
theorem C4_mutations_persist_snapshot_not_version :
    (∀ id st, (deleteLocalization id st).version = st.version ∧
        (deleteLocalization id st).snapshot = some (deleteLocalization id st).entries) ∧
    (∀ now e st, (createLocalization now e st).version = st.version ∧
        (createLocalization now e st).snapshot = some (createLocalization now e st).entries) ∧
    (∀ now id field value st st2, updateLocalization now id field value st = .ok st2 →
        st2.version = st.version ∧ st2.snapshot = some st2.entries) ∧
    (∀ now k tr st, (updateLocalizationByKey now k tr st).version = st.version ∧
        ((tr.es.isNone && tr.fr.isNone && tr.de.isNone && tr.ja.isNone && tr.zh.isNone) = false →
          (updateLocalizationByKey now k tr st).snapshot
            = some (updateLocalizationByKey now k tr st).entries)) := by
  refine ⟨?_, ?_, ?_, ?_⟩
  · intro id st
    simp [deleteLocalization, saveDatabaseToLocalStorage]
  · intro now e st
    simp [createLocalization, saveDatabaseToLocalStorage]
  · intro now id field value st st2 h
    unfold updateLocalization at h
    split at h
    · cases h
      simp [saveDatabaseToLocalStorage]
    · cases h
  · intro now k tr st
    constructor
    · unfold updateLocalizationByKey
      split
      · rfl
      · simp [saveDatabaseToLocalStorage]
    · intro h
      simp only [updateLocalizationByKey, h, Bool.false_eq_true, if_false,
        saveDatabaseToLocalStorage]

/-- Concrete result of a successful by-id update, used by the C4 witness. -/
def c4UpdOk : DBState :=
  match updateLocalization "t1" "nav-1" "es" "Hola" c4State with
  | .ok s => s
  | .error _ => c4State

/-- Witness for the amended C4 theorem at concrete inputs. -/
theorem C4_mutations_persist_snapshot_not_version_witness :
    ((deleteLocalization "nav-1" c4State).version = c4State.version ∧
      (deleteLocalization "nav-1" c4State).snapshot
        = some (deleteLocalization "nav-1" c4State).entries) ∧
    (c4UpdOk.version = c4State.version ∧ c4UpdOk.snapshot = some c4UpdOk.entries) ∧
    ((updateLocalizationByKey "t1" "navigation.home" ⟨some "Hola", none, none, none, none⟩ c4State).snapshot
      = some (updateLocalizationByKey "t1" "navigation.home" ⟨some "Hola", none, none, none, none⟩ c4State).entries) :=
  ⟨C4_mutations_persist_snapshot_not_version.1 "nav-1" c4State,
   C4_mutations_persist_snapshot_not_version.2.2.1 "t1" "nav-1" "es" "Hola" c4State c4UpdOk
     (by rfl),
   (C4_mutations_persist_snapshot_not_version.2.2.2 "t1" "navigation.home"
     ⟨some "Hola", none, none, none, none⟩ c4State).2 (by decide)⟩

/-! ## Claim C5: idempotent creation -/

/-- C5: inserting an entry whose key already exists leaves the table
unchanged (INSERT OR IGNORE), and creating the same entry twice has the same
effect on the localization table as creating it once.  The operation is a
total function, so it completes without error. -/
theorem C5_create_idempotent :
    (∀ now e st, st.entries.any (fun x => x.key = e.key) = true →
        (createLocalization now e st).entries = st.entries) ∧
    (∀ now now2 e st,
        (createLocalization now2 e (createLocalization now e st)).entries
          = (createLocalization now e st).entries) := by
  constructor
  · intro now e st h
    have hc : st.entries.any (fun x => x.id = e.id || x.key = e.key) = true := by
      rw [List.any_eq_true] at h ⊢
      obtain ⟨x, hx, hk⟩ := h
      refine ⟨x, hx, ?_⟩
      simp_all
    simp [createLocalization, saveDatabaseToLocalStorage, hc]
  · intro now now2 e st
    by_cases hc : st.entries.any (fun x => x.id = e.id || x.key = e.key) = true
    · simp [createLocalization, saveDatabaseToLocalStorage, hc]
    · have hc2 : ((st.entries ++
          [⟨e.id, e.key, e.en, e.es, e.fr, e.de, e.ja, e.zh, now, now⟩] :
            List LocalizationEntry).any
          (fun x => x.id = e.id || x.key = e.key)) = true := by
        simp [List.any_append]
      simp [createLocalization, saveDatabaseToLocalStorage, hc, hc2]

def c5Input : LocalizationInput :=
  ⟨"id9", "navigation.home", "Home again", "", "", "", "", ""⟩

/-- Witness for C5 at a concrete duplicate-key input. -/
theorem C5_create_idempotent_witness :
    c4State.entries.any (fun x => x.key = c5Input.key) = true ∧
    (createLocalization "t1" c5Input c4State).entries = c4State.entries ∧
    (createLocalization "t2" c5Input (createLocalization "t1" c5Input c4State)).entries
      = (createLocalization "t1" c5Input c4State).entries :=
  ⟨by decide,
   C5_create_idempotent.1 "t1" c5Input c4State (by decide),
   C5_create_idempotent.2 "t1" "t2" c5Input c4State⟩

/-! ## Claim C6: by-key partial update frame -/

/-- C6: updating by key with only an es value changes no other field of any
entry: fr, de, ja, zh, en, key and id all keep their previous values, and es
itself changes only on the entries whose key matches. -/
theorem C6_updateByKey_es_only_frame :
    ∀ now k v st,
      List.Forall₂ (fun a b =>
          b.id = a.id ∧ b.key = a.key ∧ b.en = a.en ∧ b.fr = a.fr ∧ b.de = a.de ∧
          b.ja = a.ja ∧ b.zh = a.zh ∧ b.es = (if a.key = k then v else a.es))
        st.entries
        (updateLocalizationByKey now k ⟨some v, none, none, none, none⟩ st).entries := by
  intro now k v st
  simp only [updateLocalizationByKey, Option.isNone_some, Bool.false_and,
    Bool.false_eq_true, if_false, saveDatabaseToLocalStorage]
  rw [List.forall₂_map_right_iff]
  rw [List.forall₂_same]
  intro x hx
  by_cases hk : x.key = k <;> simp [hk]

/-! ## Claim C8: locale validation -/

/-- C8: a locale outside the fixed six-element set makes getTranslations fail
with the explicit invalid-locale error (the operation performs no mutation,
being a pure SELECT), and every locale inside the set passes validation and
yields the key-to-value map of that locale column. -/
theorem C8_locale_validation :
    (∀ loc st, validLocales.contains loc = false →
        getTranslations loc st = .error ("Invalid locale: " ++ loc)) ∧
    (∀ loc st, validLocales.contains loc = true →
        getTranslations loc st
          = .ok (st.entries.map (fun x => (x.key, localeField loc x)))) := by
  constructor
  · intro loc st h
    have h2 : loc ∉ validLocales := by simpa using h
    simp [getTranslations, h2]
  · intro loc st h
    have h2 : loc ∈ validLocales := by simpa using h
    simp [getTranslations, h2]

/-- Witness for C8 at a rejected and at an accepted locale. -/
theorem C8_locale_validation_witness :
    getTranslations "xx" c4State = .error ("Invalid locale: " ++ "xx") ∧
    getTranslations "es" c4State
      = .ok (c4State.entries.map (fun x => (x.key, localeField "es" x))) :=
  ⟨C8_locale_validation.1 "xx" c4State (by decide),
   C8_locale_validation.2 "es" c4State (by decide)⟩

/-! ## Claim C10: empty by-key update is a complete no-op -/

/-- C10: calling the by-key update with no locale field at all returns the
state unchanged: no entry field changes (updated_at included) and the
persisted snapshot is not re-written, because the operation returns before
issuing any write. -/
theorem C10_updateByKey_empty_noop :
    ∀ now k st, updateLocalizationByKey now k ⟨none, none, none, none, none⟩ st = st := by
  intro now k st
  simp [updateLocalizationByKey]

/-! ## Source rewriting engine of the component preview

Every rewrite pass of rewriteWithKeys is a global regex replace.  We model it
with a generic left-to-right scanner: at each position a matcher is tried; on
success the replacement text is emitted and scanning resumes after the
matched span (the replacement is not rescanned, as with String.replace), on
failure one character is copied and scanning advances by one.  The matcher
receives the reversed already-scanned prefix of the ORIGINAL string so that
the lookbehind guards of the source (which slice the original string at the
match offset) can be evaluated.  All matchers consume at least one character,
so a fuel of length+1 never runs out. -/

def scanGo (m : List Char → List Char → Option (List Char × List Char)) :
    Nat → List Char → List Char → List Char
  | 0, _, s => s
  | fuel + 1, rpre, s =>
    match s with
    | [] => []
    | c :: cs =>
      match m rpre (c :: cs) with
      | some (emit, rest) =>
        emit ++ scanGo m fuel (((c :: cs).take ((c :: cs).length - rest.length)).reverse ++ rpre) rest
      | none => c :: scanGo m fuel (c :: rpre) cs

/-- One global replace pass over a string. -/
def runPass (m : List Char → List Char → Option (List Char × List Char))
    (s : List Char) : List Char :=
  scanGo m (s.length + 1) [] s

/-! Helper parsers.  The greedy `\s*` of the source regexes is deterministic
because the character that must follow is never a whitespace character, so
maximal-munch `dropWhile` is a faithful embedding. -/

def skipWs (s : List Char) : List Char := s.dropWhile isWsJS

def expectC (c : Char) : List Char → Option (List Char)
  | [] => none
  | x :: t => if x = c then some t else none

/-- Match a literal text (escapeForRegex makes the interpolated literal match
itself, for every text). -/
def eatLit : List Char → List Char → Option (List Char)
  | [], s => some s
  | _ :: _, [] => none
  | c :: p, x :: t => if x = c then eatLit p t else none

def qS : Char := '\x27'

def qD : Char := '"'

def lbC : Char := '\x7b'

def rbC : Char := '\x7d'

def strL (s : String) : List Char := s.toList

/-- The canonical runtime call `__i18n(` quote k quote `)`. -/
def i18nCallL (k : List Char) : List Char := strL "__i18n(" ++ qS :: (k ++ [qS, ')'])

/-- The canonical call wrapped in an expression brace. -/
def i18nCallBr (k : List Char) : List Char := lbC :: (i18nCallL k ++ [rbC])

/-- Pass 1 matcher, regex gt `\s*` q T q `\s*` lt for quote q: a JSX text-node
literal; replacement gt space brace-call space lt. -/
def mText (q : Char) (T K : List Char) (_rpre s : List Char) :
    Option (List Char × List Char) :=
  match s with
  | [] => none
  | c :: r0 =>
    if c = '>' then
      match expectC q (skipWs r0) with
      | none => none
      | some r1 =>
        match eatLit T r1 with
        | none => none
        | some r2 =>
          match expectC q r2 with
          | none => none
          | some r3 =>
            match expectC '<' (skipWs r3) with
            | none => none
            | some r4 => some ('>' :: ' ' :: (i18nCallBr K ++ [' ', '<']), r4)
    else none

/-- Pass 2 matcher, regex brace `\s*` q T q `\s*` brace: an expression-wrapped
literal; replacement brace-call. -/
def mExpr (q : Char) (T K : List Char) (_rpre s : List Char) :
    Option (List Char × List Char) :=
  match s with
  | [] => none
  | c :: r0 =>
    if c = lbC then
      match expectC q (skipWs r0) with
      | none => none
      | some r1 =>
        match eatLit T r1 with
        | none => none
        | some r2 =>
          match expectC q r2 with
          | none => none
          | some r3 =>
            match expectC rbC (skipWs r3) with
            | none => none
            | some r4 => some (i18nCallBr K, r4)
    else none

/-! The dotted-key body `[A-Za-z]+(\.[A-Za-z0-9_]+)+`.  Greedy matching of
this regex is deterministic: the three relevant character classes (letters,
`[A-Za-z0-9_]`, the dot) and the delimiter that must follow the body (a
quote) are pairwise incompatible in the positions where the engine could
backtrack, so maximal-munch parsing returns the unique possible match. -/

def alnumRunGo : List Char → List Char × List Char
  | [] => ([], [])
  | [c] => if alnumU c then ([c], []) else ([], [c])
  | c :: c2 :: r2 =>
    if alnumU c then
      let p := alnumRunGo (c2 :: r2)
      (c :: p.1, p.2)
    else if c = '.' && alnumU c2 then
      let p := alnumRunGo r2
      ('.' :: c2 :: p.1, p.2)
    else ([], c :: c2 :: r2)

/-- Parse the dotted-key body at the head of the input: maximal letter run,
then at least one dot-led group, then further alphanumeric runs and groups. -/
def parseKeyBody (s : List Char) : Option (List Char × List Char) :=
  match s.dropWhile Char.isAlpha with
  | '.' :: c :: r2 =>
    if (s.takeWhile Char.isAlpha).isEmpty then none
    else if alnumU c then
      some (s.takeWhile Char.isAlpha ++ '.' :: c :: (alnumRunGo r2).1, (alnumRunGo r2).2)
    else none
  | _ => none

/-- The alias map for common variations used by the rewriter. -/
def keyAliases : List (List Char × List Char) :=
  [(strL "social.home", strL "navigation.home"),
   (strL "social.about", strL "navigation.about"),
   (strL "social.services", strL "navigation.services"),
   (strL "social.contact", strL "navigation.contact")]

def lookupL (tab : List (List Char × List Char)) (k : List Char) : Option (List Char) :=
  (tab.find? (fun p => p.1 == k)).map (fun p => p.2)

/-- keyAliases[k] with fallback to k itself. -/
def resolveAlias (k : List Char) : List Char := (lookupL keyAliases k).getD k

/-- Lookbehind guard of the dotted-literal pass: the regex t lparen `\s*` end
applied to the 12 characters before the match. -/
def guardTParen (rpre : List Char) : Bool :=
  ((rpre.take 12).dropWhile isWsJS).take 2 == ['(', 't']

/-- Lookbehind guard: `__i18n(` followed by optional whitespace, applied to
the 12 characters before the match (checked on the reversed window). -/
def guardI18nParen (rpre : List Char) : Bool :=
  ((rpre.take 12).dropWhile isWsJS).take 7 == ['(', 'n', '8', '1', 'i', '_', '_']

/-- Lookahead guard of the dotted-literal pass: optional whitespace then a
colon, inside the 5 characters after the match. -/
def guardColon (rest : List Char) : Bool :=
  ((rest.take 5).dropWhile isWsJS).take 1 == [':']

/-- Pass 3 matcher: a quoted dotted-key literal anywhere.  Guarded occurrences
and keys absent from the store are emitted unchanged (the scan still skips
the matched span, as String.replace does when the replacer returns the
match). -/
def mKeyLike (allKeys : List (List Char)) (rpre s : List Char) :
    Option (List Char × List Char) :=
  match s with
  | [] => none
  | c :: r0 =>
    if c = qS || c = qD then
      match parseKeyBody r0 with
      | none => none
      | some (k, r1) =>
        match expectC c r1 with
        | none => none
        | some r2 =>
          if guardTParen rpre || guardI18nParen rpre then
            some (c :: (k ++ [c]), r2)
          else if guardColon r2 then
            some (c :: (k ++ [c]), r2)
          else
            if allKeys.contains k || allKeys.contains (resolveAlias k) then
              some (i18nCallBr (resolveAlias k), r2)
            else
              some (c :: (k ++ [c]), r2)
    else none

/-- Pass 4 matcher: an existing raw call t lparen quote key quote rparen.  The
replacement is the canonical call, wrapped in braces unless the context is
already an expression: preceded by an open brace, followed by a close brace,
or an equals sign within the 10 preceding characters. -/
def mTCall (_allKeys : List (List Char)) (rpre s : List Char) :
    Option (List Char × List Char) :=
  match s with
  | c1 :: c2 :: r1 =>
    if c1 = 't' then
      if c2 = '(' then
        match skipWs r1 with
        | [] => none
        | q1 :: r3 =>
          if q1 = qS || q1 = qD then
            match parseKeyBody r3 with
            | none => none
            | some (k, r4) =>
              match r4 with
              | [] => none
              | q2 :: r5 =>
                if q2 = qS || q2 = qD then
                  match expectC ')' (skipWs r5) with
                  | none => none
                  | some r6 =>
                    if (rpre.take 10).take 1 == [lbC] || r6.take 1 == [rbC]
                        || (rpre.take 10).contains '=' then
                      some (i18nCallL k, r6)
                    else
                      some (i18nCallBr k, r6)
                else none
          else none
      else none
    else none
  | _ => none

/-- Pass 5 matcher for a known prop field f and quote q: f `\s*` colon `\s*`
q key q, rewritten to f colon space call only when the key (or its alias
resolution) exists in the store. -/
def mField (f : List Char) (q : Char) (allKeys : List (List Char))
    (_rpre s : List Char) : Option (List Char × List Char) :=
  match eatLit f s with
  | none => none
  | some r0 =>
    match r0.dropWhile isWsJS with
    | ':' :: r2 =>
      match r2.dropWhile isWsJS with
      | [] => none
      | c :: r4 =>
        if c = q then
          match parseKeyBody r4 with
          | none => none
          | some (k, r5) =>
            match expectC q r5 with
            | none => none
            | some r6 =>
              if allKeys.contains k || allKeys.contains (resolveAlias k) then
                some (f ++ (strL ": " ++ i18nCallL (resolveAlias k)), r6)
              else
                some (f ++ (r0.takeWhile isWsJS ++ ':' :: (r2.takeWhile isWsJS ++ c :: (k ++ [c]))), r6)
        else none
    | _ => none

def fieldsNames : List (List Char) :=
  [strL "label", strL "title", strL "description", strL "buttonText",
   strL "text", strL "placeholder", strL "name"]

/-- The four literal-replacement passes run for one text-to-key pair. -/
def rewritePair (out t k : List Char) : List Char :=
  runPass (mExpr qD t k) (runPass (mExpr qS t k) (runPass (mText qD t k) (runPass (mText qS t k) out)))

/-- Embedding of rewriteWithKeys: the literal loop over the English-text map,
then the dotted-literal pass, the raw-call normalization pass and the known
prop-field passes, in source order. -/
def rewriteWithKeys (entries : List LocalizationEntry) (code : List Char) : List Char :=
  let textToKey := mapFromPairs (entries.map (fun e => (jsTrimS e.en, e.key)))
  let allKeys := entries.map (fun e => e.key.toList)
  let s1 := textToKey.foldl (fun out p =>
      let t := p.1.toList
      if t.isEmpty then out
      else if lowerS p.1 = "react" || lowerS p.1 = "use client" then out
      else rewritePair out t p.2.toList) code
  let s2 := runPass (mKeyLike allKeys) s1
  let s3 := runPass (mTCall allKeys) s2
  fieldsNames.foldl (fun out f =>
      runPass (mField f qD allKeys) (runPass (mField f qS allKeys) out)) s3

/-! ## Scanner lemmas -/

theorem scanGo_zero {m : List Char → List Char → Option (List Char × List Char)}
    (rpre s : List Char) : scanGo m 0 rpre s = s := rfl

theorem scanGo_nil {m : List Char → List Char → Option (List Char × List Char)}
    (fuel : Nat) (rpre : List Char) : scanGo m fuel rpre [] = [] := by
  cases fuel <;> rfl

theorem scanGo_step_none {m : List Char → List Char → Option (List Char × List Char)}
    {rpre : List Char} {c : Char} {cs : List Char}
    (h : m rpre (c :: cs) = none) (fuel : Nat) :
    scanGo m (fuel + 1) rpre (c :: cs) = c :: scanGo m fuel (c :: rpre) cs := by
  simp only [scanGo, h]

theorem scanGo_step_some {m : List Char → List Char → Option (List Char × List Char)}
    {rpre : List Char} {c : Char} {cs emit rest : List Char}
    (h : m rpre (c :: cs) = some (emit, rest)) (fuel : Nat) :
    scanGo m (fuel + 1) rpre (c :: cs)
      = emit ++ scanGo m fuel
          (((c :: cs).take ((c :: cs).length - rest.length)).reverse ++ rpre) rest := by
  simp only [scanGo, h]

/-- A chunk is trigger free when no character of it, paired with the
character that follows it (the last one pairs with the first character of the
continuation), satisfies the trigger predicate of a matcher. -/
def chunkFree (trig2 : Char → Option Char → Bool) : List Char → Option Char → Bool
  | [], _ => true
  | [c], nxt => !trig2 c nxt
  | c :: c2 :: t, nxt => !trig2 c (some c2) && chunkFree trig2 (c2 :: t) nxt

/-- First character of a list, with a default continuation. -/
def nextOf (b : List Char) (nxt : Option Char) : Option Char :=
  match b with
  | [] => nxt
  | c :: _ => some c

theorem head_append_eq_nextOf (a b : List Char) : (a ++ b).head? = nextOf a b.head? := by
  cases a <;> rfl

theorem nextOf_append (a b : List Char) (nxt : Option Char) :
    nextOf (a ++ b) nxt = nextOf a (nextOf b nxt) := by
  cases a <;> cases b <;> rfl

theorem chunkFree_cons_head {trig2 : Char → Option Char → Bool} {c : Char}
    {a : List Char} {nxt : Option Char}
    (h : chunkFree trig2 (c :: a) nxt = true) : trig2 c (nextOf a nxt) = false := by
  cases a with
  | nil => simpa [chunkFree, nextOf] using h
  | cons c2 t =>
    have h2 := h
    simp only [chunkFree, Bool.and_eq_true, Bool.not_eq_true'] at h2
    simpa [nextOf] using h2.1

theorem chunkFree_cons_tail {trig2 : Char → Option Char → Bool} {c : Char}
    {a : List Char} {nxt : Option Char}
    (h : chunkFree trig2 (c :: a) nxt = true) : chunkFree trig2 a nxt = true := by
  cases a with
  | nil => rfl
  | cons c2 t =>
    have h2 := h
    simp only [chunkFree, Bool.and_eq_true, Bool.not_eq_true'] at h2
    exact h2.2

theorem chunkFree_cons {trig2 : Char → Option Char → Bool} {c : Char}
    {a : List Char} {nxt : Option Char}
    (h1 : trig2 c (nextOf a nxt) = false) (h2 : chunkFree trig2 a nxt = true) :
    chunkFree trig2 (c :: a) nxt = true := by
  cases a with
  | nil => simp [chunkFree, nextOf] at h1 ⊢; simp [h1]
  | cons c2 t =>
    simp only [chunkFree, Bool.and_eq_true, Bool.not_eq_true']
    exact ⟨by simpa [nextOf] using h1, h2⟩

theorem chunkFree_append {trig2 : Char → Option Char → Bool} :
    ∀ (a b : List Char) (nxt : Option Char),
      chunkFree trig2 a (nextOf b nxt) = true → chunkFree trig2 b nxt = true →
      chunkFree trig2 (a ++ b) nxt = true := by
  intro a
  induction a with
  | nil => intro b nxt _ hb; simpa using hb
  | cons c a ih =>
    intro b nxt h hb
    rw [List.cons_append]
    apply chunkFree_cons
    · rw [nextOf_append]
      exact chunkFree_cons_head h
    · exact ih b nxt (chunkFree_cons_tail h) hb

theorem chunkFree_of_all_not {trig2 : Char → Option Char → Bool} :
    ∀ (a : List Char) (nxt : Option Char),
      (∀ c ∈ a, ∀ n, trig2 c n = false) → chunkFree trig2 a nxt = true := by
  intro a
  induction a with
  | nil => intro nxt _; rfl
  | cons c a ih =>
    intro nxt H
    apply chunkFree_cons
    · exact H c (by simp) _
    · exact ih nxt (fun x hx n => H x (by simp [hx]) n)

/-- Skipping a trigger-free chunk: the scanner copies it unchanged. -/
theorem scanGo_skip {m : List Char → List Char → Option (List Char × List Char)}
    {trig2 : Char → Option Char → Bool}
    (hm : ∀ rpre c cs, trig2 c cs.head? = false → m rpre (c :: cs) = none) :
    ∀ (a : List Char) (fuel : Nat) (rpre b : List Char),
      chunkFree trig2 a b.head? = true →
      scanGo m fuel rpre (a ++ b)
        = a ++ scanGo m (fuel - a.length) (a.reverse ++ rpre) b := by
  intro a
  induction a with
  | nil => intro fuel rpre b _; simp
  | cons c a ih =>
    intro fuel rpre b h
    have hc : trig2 c ((a ++ b).head?) = false := by
      rw [head_append_eq_nextOf]
      exact chunkFree_cons_head h
    have h2 : chunkFree trig2 a b.head? = true := chunkFree_cons_tail h
    cases fuel with
    | zero => simp [scanGo_zero]
    | succ f =>
      have h0 : m rpre (c :: (a ++ b)) = none := hm rpre c (a ++ b) hc
      rw [List.cons_append, scanGo_step_none h0 f, ih f (c :: rpre) b h2]
      simp [List.append_assoc, Nat.succ_sub_succ]

/-- A scan whose matcher fails on every nonempty suffix is the identity. -/
theorem scanGo_id_of {m : List Char → List Char → Option (List Char × List Char)} :
    ∀ (s : List Char), (∀ rpre t, t ≠ [] → t <:+ s → m rpre t = none) →
      ∀ (fuel : Nat) (rpre : List Char), scanGo m fuel rpre s = s := by
  intro s
  induction s with
  | nil => intro _ fuel rpre; exact scanGo_nil fuel rpre
  | cons c cs ih =>
    intro H fuel rpre
    cases fuel with
    | zero => rfl
    | succ f =>
      have h0 : m rpre (c :: cs) = none :=
        H rpre (c :: cs) (by simp) (List.suffix_refl _)
      have H2 : ∀ rpre t, t ≠ [] → t <:+ cs → m rpre t = none := by
        intro r t ht hs
        exact H r t ht (hs.trans (List.suffix_cons c cs))
      rw [scanGo_step_none h0 f, ih H2 f (c :: rpre)]

/-- A matcher that needs a character absent from the string never fires. -/
theorem scanGo_id_of_missing {m : List Char → List Char → Option (List Char × List Char)}
    (ch : Char) (hm : ∀ rpre t, m rpre t ≠ none → ch ∈ t)
    (s : List Char) (hs : ch ∉ s) :
    ∀ (fuel : Nat) (rpre : List Char), scanGo m fuel rpre s = s := by
  apply scanGo_id_of
  intro rpre t _ hsuf
  by_contra hne
  exact hs (hsuf.subset (hm rpre t hne))

theorem runPass_eq_scan {m : List Char → List Char → Option (List Char × List Char)}
    (s : List Char) : runPass m s = scanGo m (s.length + 1) [] s := rfl

/-- A pass over an entirely trigger-free string is the identity. -/
theorem runPass_id_of_chunkFree {m : List Char → List Char → Option (List Char × List Char)}
    {trig2 : Char → Option Char → Bool}
    (hm : ∀ rpre c cs, trig2 c cs.head? = false → m rpre (c :: cs) = none)
    (s : List Char) (h : chunkFree trig2 s none = true) : runPass m s = s := by
  have h1 := scanGo_skip hm s (s.length + 1) [] [] (by simpa [nextOf] using h)
  simpa [runPass, scanGo_nil] using h1

/-! ## Literal and parser lemmas -/

theorem eatLit_self_append : ∀ (T rest : List Char), eatLit T (T ++ rest) = some rest := by
  intro T
  induction T with
  | nil => intro rest; rfl
  | cons c t ih => intro rest; simp [eatLit, ih]

theorem eatLit_eq_append : ∀ (f s r : List Char), eatLit f s = some r → s = f ++ r := by
  intro f
  induction f with
  | nil => intro s r h; cases h; rfl
  | cons c t ih =>
    intro s r h
    cases s with
    | nil => cases h
    | cons x xs =>
      by_cases hx : x = c
      · subst hx
        simp only [eatLit, if_pos rfl] at h
        simpa using ih xs r h
      · simp [eatLit, hx] at h

/-! ## Matcher trigger lemmas -/

def trigChar (ch : Char) : Char → Option Char → Bool := fun c _ => c == ch

def trigQuote : Char → Option Char → Bool := fun c _ => c == qS || c == qD

def trigPair (p q : Char) : Char → Option Char → Bool := fun c nxt => c == p && nxt == some q

theorem mText_trig (q : Char) (T K : List Char) :
    ∀ rpre c cs, trigChar '>' c cs.head? = false → mText q T K rpre (c :: cs) = none := by
  intro rpre c cs h
  have hc : ¬ c = '>' := by simpa [trigChar] using h
  simp [mText, hc]

theorem mExpr_trig (q : Char) (T K : List Char) :
    ∀ rpre c cs, trigChar lbC c cs.head? = false → mExpr q T K rpre (c :: cs) = none := by
  intro rpre c cs h
  have hc : ¬ c = lbC := by simpa [trigChar] using h
  simp [mExpr, hc]

theorem mKeyLike_trig (ak : List (List Char)) :
    ∀ rpre c cs, trigQuote c cs.head? = false → mKeyLike ak rpre (c :: cs) = none := by
  intro rpre c cs h
  have hc : ¬ c = qS ∧ ¬ c = qD := by
    constructor <;> intro he <;> simp [trigQuote, he] at h
  simp [mKeyLike, hc.1, hc.2]

theorem mTCall_trig (ak : List (List Char)) :
    ∀ rpre c cs, trigPair 't' '(' c cs.head? = false → mTCall ak rpre (c :: cs) = none := by
  intro rpre c cs h
  cases cs with
  | nil => rfl
  | cons c2 r =>
    by_cases ht : c = 't'
    · have hp : ¬ c2 = '(' := by
        intro hq
        simp [trigPair, ht, hq] at h
      simp [mTCall, ht, hp]
    · simp [mTCall, ht]

theorem mField_trig (fc : Char) (ft : List Char) (q : Char) (ak : List (List Char)) :
    ∀ rpre c cs, trigChar fc c cs.head? = false → mField (fc :: ft) q ak rpre (c :: cs) = none := by
  intro rpre c cs h
  have hc : ¬ c = fc := by simpa [trigChar] using h
  simp [mField, eatLit, hc]

theorem dropWhile_isSuffix (p : Char → Bool) :
    ∀ (l : List Char), l.dropWhile p <:+ l := by
  intro l
  induction l with
  | nil => exact List.suffix_refl _
  | cons c t ih =>
    by_cases hc : p c = true
    · rw [List.dropWhile_cons, if_pos hc]
      exact ih.trans (List.suffix_cons c t)
    · rw [List.dropWhile_cons, if_neg hc]

/-- A successful field-pass match always contains a colon. -/
theorem mField_requires_colon (f : List Char) (q : Char) (ak : List (List Char)) :
    ∀ rpre s, mField f q ak rpre s ≠ none → (':' : Char) ∈ s := by
  intro rpre s h
  by_contra hmem
  apply h
  unfold mField
  split
  · rfl
  next r0 he =>
    split
    next r2 heq =>
      exfalso
      apply hmem
      have h1 : (':' : Char) ∈ r0.dropWhile isWsJS := by rw [heq]; simp
      have h2 : (':' : Char) ∈ r0 := (dropWhile_isSuffix isWsJS r0).subset h1
      rw [eatLit_eq_append f s r0 he]
      exact List.mem_append_right f h2
    next => rfl

/-! ## Deterministic parser lemmas -/

theorem alnumRunGo_cons_alnum {c : Char} (hc : alnumU c = true) (c2 : Char) (t : List Char) :
    alnumRunGo (c :: c2 :: t) = (c :: (alnumRunGo (c2 :: t)).1, (alnumRunGo (c2 :: t)).2) := by
  simp [alnumRunGo, hc]

theorem alnumRunGo_cons_dot {c2 : Char} (h2 : alnumU c2 = true) (t : List Char) :
    alnumRunGo ('.' :: c2 :: t) = ('.' :: c2 :: (alnumRunGo t).1, (alnumRunGo t).2) := by
  have hd : alnumU '.' = false := by decide
  simp [alnumRunGo, hd, h2]

theorem alnumRunGo_cons_stop {c c2 : Char} (hc : alnumU c = false)
    (hd : (decide (c = '.') && alnumU c2) = false) (t : List Char) :
    alnumRunGo (c :: c2 :: t) = ([], c :: c2 :: t) := by
  simp only [alnumRunGo, hc, Bool.false_eq_true, if_false, hd]

theorem alnumRunGo_single {c : Char} :
    alnumRunGo [c] = if alnumU c then ([c], []) else ([], [c]) := rfl

theorem alnumRunGo_append_eq : ∀ (s : List Char), (alnumRunGo s).1 ++ (alnumRunGo s).2 = s
  | [] => rfl
  | [c] => by by_cases hc : alnumU c = true <;> simp [alnumRunGo_single, hc]
  | c :: c2 :: t => by
      by_cases hc : alnumU c = true
      · have ih := alnumRunGo_append_eq (c2 :: t)
        rw [alnumRunGo_cons_alnum hc]
        simp [ih]
      · rw [Bool.not_eq_true] at hc
        by_cases hdot : (decide (c = '.') && alnumU c2) = true
        · have hc2 : c = '.' := by
            have h3 := hdot
            simp only [Bool.and_eq_true, decide_eq_true_eq] at h3
            exact h3.1
          subst hc2
          have h2 : alnumU c2 = true := by
            have h3 := hdot
            simp only [Bool.and_eq_true, decide_eq_true_eq] at h3
            exact h3.2
          have ih := alnumRunGo_append_eq t
          rw [alnumRunGo_cons_dot h2]
          simp [ih]
        · rw [Bool.not_eq_true] at hdot
          rw [alnumRunGo_cons_stop hc hdot]
          rfl

theorem alnumRunGo_extend (x : Char) (rest : List Char)
    (hx1 : alnumU x = false) (hx2 : x ≠ '.') :
    ∀ (r : List Char), alnumRunGo r = (r, []) →
      alnumRunGo (r ++ x :: rest) = (r, x :: rest)
  | [] => fun _ => by
      cases rest with
      | nil => simp [alnumRunGo_single, hx1]
      | cons y t =>
        have hd : (decide (x = '.') && alnumU y) = false := by
          simp [hx2]
        simpa using alnumRunGo_cons_stop hx1 hd t
  | [c] => fun h => by
      have hc : alnumU c = true := by
        by_contra hcf
        rw [Bool.not_eq_true] at hcf
        simp [alnumRunGo_single, hcf] at h
      have hrec := alnumRunGo_extend x rest hx1 hx2 [] rfl
      simp only [List.nil_append] at hrec
      have hstep := alnumRunGo_cons_alnum hc x rest
      simp only [List.cons_append, List.nil_append, hstep, hrec]
  | c :: c2 :: t => fun h => by
      by_cases hc : alnumU c = true
      · have hp : alnumRunGo (c2 :: t) = (c2 :: t, []) := by
          rw [alnumRunGo_cons_alnum hc] at h
          simp only [Prod.mk.injEq, List.cons.injEq, true_and] at h
          exact Prod.ext h.1 h.2
        have hrec := alnumRunGo_extend x rest hx1 hx2 (c2 :: t) hp
        rw [List.cons_append] at hrec
        have hstep := alnumRunGo_cons_alnum hc c2 (t ++ x :: rest)
        rw [List.cons_append, List.cons_append, hstep, hrec]
      · rw [Bool.not_eq_true] at hc
        by_cases hdot : (decide (c = '.') && alnumU c2) = true
        · have hc2 : c = '.' := by
            have h3 := hdot
            simp only [Bool.and_eq_true, decide_eq_true_eq] at h3
            exact h3.1
          have h2 : alnumU c2 = true := by
            have h3 := hdot
            simp only [Bool.and_eq_true, decide_eq_true_eq] at h3
            exact h3.2
          subst hc2
          have hp : alnumRunGo t = (t, []) := by
            rw [alnumRunGo_cons_dot h2] at h
            simp only [Prod.mk.injEq, List.cons.injEq, true_and] at h
            exact Prod.ext h.1 h.2
          have hrec := alnumRunGo_extend x rest hx1 hx2 t hp
          have hstep := alnumRunGo_cons_dot h2 (t ++ x :: rest)
          rw [List.cons_append, List.cons_append, hstep, hrec]
        · exfalso
          rw [Bool.not_eq_true] at hdot
          rw [alnumRunGo_cons_stop hc hdot] at h
          simp at h

theorem takeWhile_append_of_ne (p : Char → Bool) :
    ∀ (a b : List Char), a.dropWhile p ≠ [] →
      (a ++ b).takeWhile p = a.takeWhile p ∧ (a ++ b).dropWhile p = a.dropWhile p ++ b := by
  intro a
  induction a with
  | nil => intro b h; simp at h
  | cons c t ih =>
    intro b h
    by_cases hc : p c = true
    · have ht : t.dropWhile p ≠ [] := by
        simpa [List.dropWhile_cons, hc] using h
      obtain ⟨h1, h2⟩ := ih b ht
      constructor
      · simp [List.takeWhile_cons, hc, h1]
      · simp [List.dropWhile_cons, hc, h2]
    · constructor
      · simp [List.takeWhile_cons, hc]
      · simp [List.dropWhile_cons, hc]

/-- Whenever the dotted-key body parser consumes k exactly, appending a
character that can extend neither an alphanumeric run nor start a new group
(such as a quote) and arbitrary material behind it leaves the parse of k
unchanged. -/
theorem parseKeyBody_extend (k : List Char) (h : parseKeyBody k = some (k, []))
    (x : Char) (rest : List Char) (hx1 : alnumU x = false) (hx2 : x ≠ '.') :
    parseKeyBody (k ++ x :: rest) = some (k, x :: rest) := by
  unfold parseKeyBody at h
  split at h
  next c r2 heq =>
    by_cases hw : (k.takeWhile Char.isAlpha).isEmpty = true
    · rw [if_pos hw] at h
      exact absurd h (by simp)
    · rw [if_neg hw] at h
      by_cases hcu : alnumU c = true
      · rw [if_pos hcu] at h
        have hkd : k.dropWhile Char.isAlpha ≠ [] := by rw [heq]; simp
        obtain ⟨ht1, ht2⟩ := takeWhile_append_of_ne Char.isAlpha k (x :: rest) hkd
        have hinj : k.takeWhile Char.isAlpha ++ '.' :: c :: (alnumRunGo r2).1 = k ∧
            (alnumRunGo r2).2 = [] := by
          have h2 := h
          simp only [Option.some.injEq, Prod.mk.injEq] at h2
          exact h2
        have hr2 : alnumRunGo r2 = (r2, []) := by
          have happ := alnumRunGo_append_eq r2
          rw [hinj.2, List.append_nil] at happ
          exact Prod.ext happ hinj.2
        have hext := alnumRunGo_extend x rest hx1 hx2 r2 hr2
        rw [hr2] at hinj
        unfold parseKeyBody
        rw [ht2, heq]
        simp only [List.cons_append]
        rw [ht1, if_neg hw, if_pos hcu, hext]
        simp only [Option.some.injEq, Prod.mk.injEq]
        exact ⟨by simpa using hinj.1, trivial⟩
      · rw [if_neg hcu] at h
        exact absurd h (by simp)
  next => exact absurd h (by simp)

/-- A string that is entirely trigger free for a matcher passes unchanged. -/
theorem scanGo_id_chunkFree {m : List Char → List Char → Option (List Char × List Char)}
    {trig2 : Char → Option Char → Bool}
    (hm : ∀ rpre c cs, trig2 c cs.head? = false → m rpre (c :: cs) = none)
    (s : List Char) (h : chunkFree trig2 s none = true) :
    ∀ (fuel : Nat) (rpre : List Char), scanGo m fuel rpre s = s := by
  intro fuel rpre
  have h2 := scanGo_skip hm s fuel rpre [] (by simpa using h)
  simpa [scanGo_nil] using h2

/-! ## Claim C9: the dotted-literal rewrite pass -/

/-- C9 counterexample: the claim says every dotted-shape quoted literal that
is not guarded gets replaced, but the pass also requires the key (or its
alias resolution) to exist in the store.  With an empty store the unguarded
literal in the source stays unchanged and no canonical call appears. -/
theorem C9_unknown_key_not_replaced :
    rewriteWithKeys [] (strL "x = " ++ (qS :: (strL "foo.bar" ++ [qS])))
      = strL "x = " ++ (qS :: (strL "foo.bar" ++ [qS])) := by decide

/-- C9 amended: in the dotted-literal pass, for every store key set and every
dotted-shaped key k (stated through the deterministic body parser consuming k
exactly), an unguarded quoted occurrence is replaced by the brace-wrapped
canonical call on the alias-resolved key provided the key or its resolution
exists in the store; an occurrence directly preceded by an existing
translation-call opening parenthesis, or directly followed by a colon, is
left unchanged. -/
theorem C9_keylike_guarded_replacement :
    ∀ (ak : List (List Char)) (k : List Char),
      parseKeyBody k = some (k, []) →
      (((ak.contains k || ak.contains (resolveAlias k)) = true →
          runPass (mKeyLike ak) (strL "x = " ++ (qS :: (k ++ [qS])))
            = strL "x = " ++ i18nCallBr (resolveAlias k)) ∧
        runPass (mKeyLike ak) (strL "t(" ++ (qS :: (k ++ (qS :: [')']))))
          = strL "t(" ++ (qS :: (k ++ (qS :: [')']))) ∧
        runPass (mKeyLike ak) (qS :: (k ++ (qS :: strL ": 1")))
          = qS :: (k ++ (qS :: strL ": 1"))) := by
  intro ak k hk
  refine ⟨fun hmem => ?_, ?_, ?_⟩
  · have hparse : parseKeyBody (k ++ [qS]) = some (k, [qS]) := by
      simpa using parseKeyBody_extend k hk qS [] (by decide) (by decide)
    have hga : guardTParen (strL "x = ").reverse = false := by decide
    have hgb : guardI18nParen (strL "x = ").reverse = false := by decide
    have hmem2 : k ∈ ak ∨ resolveAlias k ∈ ak := by simpa using hmem
    have hmatch : mKeyLike ak ((strL "x = ").reverse ++ []) (qS :: (k ++ [qS]))
        = some (i18nCallBr (resolveAlias k), []) := by
      simp [mKeyLike, hparse, hga, hgb, hmem2, expectC, guardColon]
    have hlen : (strL "x = " ++ (qS :: (k ++ [qS]))).length + 1 = (k.length + 2 + 1) + 4 := by
      simp [strL]
    rw [runPass_eq_scan, hlen,
      scanGo_skip (mKeyLike_trig ak) (strL "x = ") (k.length + 2 + 1 + 4) [] (qS :: (k ++ [qS]))
        (by simp only [List.head?_cons]; decide)]
    have hf : k.length + 2 + 1 + 4 - (strL "x = ").length = k.length + 2 + 1 := by
      simp [strL]
    rw [hf, scanGo_step_some hmatch (k.length + 2), scanGo_nil]
    simp
  · have hparse : parseKeyBody (k ++ (qS :: [')'])) = some (k, qS :: [')']) :=
      parseKeyBody_extend k hk qS [')'] (by decide) (by decide)
    have hga : guardTParen (strL "t(").reverse = true := by decide
    have hmatch : mKeyLike ak ((strL "t(").reverse ++ []) (qS :: (k ++ (qS :: [')'])))
        = some (qS :: (k ++ [qS]), [')']) := by
      simp [mKeyLike, hparse, hga, expectC]
    have hlen : (strL "t(" ++ (qS :: (k ++ (qS :: [')'])))).length + 1
        = (k.length + 3 + 1) + 2 := by
      simp [strL]
    rw [runPass_eq_scan, hlen,
      scanGo_skip (mKeyLike_trig ak) (strL "t(") (k.length + 3 + 1 + 2) [] _
        (by simp only [List.head?_cons]; decide)]
    have hf : k.length + 3 + 1 + 2 - (strL "t(").length = k.length + 3 + 1 := by
      simp [strL]
    rw [hf, scanGo_step_some hmatch (k.length + 3)]
    rw [scanGo_id_chunkFree (mKeyLike_trig ak) [')'] (by decide) (k.length + 3) _]
    simp
  · have hparse : parseKeyBody (k ++ (qS :: strL ": 1")) = some (k, qS :: strL ": 1") :=
      parseKeyBody_extend k hk qS (strL ": 1") (by decide) (by decide)
    have hga : guardTParen ([] : List Char) = false := by decide
    have hgb : guardI18nParen ([] : List Char) = false := by decide
    have hgc : guardColon (strL ": 1") = true := by decide
    have hmatch : mKeyLike ak [] (qS :: (k ++ (qS :: strL ": 1")))
        = some (qS :: (k ++ [qS]), strL ": 1") := by
      simp [mKeyLike, hparse, hga, hgb, hgc, expectC]
    have hlen : (qS :: (k ++ (qS :: strL ": 1"))).length + 1 = (k.length + 5) + 1 := by
      simp [strL]
    rw [runPass_eq_scan, hlen, scanGo_step_some hmatch (k.length + 5)]
    rw [scanGo_id_chunkFree (mKeyLike_trig ak) (strL ": 1") (by decide) (k.length + 5) _]
    simp

/-- Witness for C9 at the alias key social.home resolving to navigation.home. -/
theorem C9_keylike_guarded_replacement_witness :
    (parseKeyBody (strL "social.home") = some (strL "social.home", []) ∧
      (([strL "navigation.home"].contains (strL "social.home")
        || [strL "navigation.home"].contains (resolveAlias (strL "social.home"))) = true)) ∧
    runPass (mKeyLike [strL "navigation.home"])
        (strL "x = " ++ (qS :: (strL "social.home" ++ [qS])))
      = strL "x = " ++ i18nCallBr (resolveAlias (strL "social.home")) ∧
    runPass (mKeyLike [strL "navigation.home"])
        (strL "t(" ++ (qS :: (strL "social.home" ++ (qS :: [')']))))
      = strL "t(" ++ (qS :: (strL "social.home" ++ (qS :: [')']))) :=
  ⟨⟨by decide, by decide⟩,
   (C9_keylike_guarded_replacement [strL "navigation.home"] (strL "social.home")
      (by decide)).1 (by decide),
   (C9_keylike_guarded_replacement [strL "navigation.home"] (strL "social.home")
      (by decide)).2.1⟩

/-! ## Claim C2: literal-to-call rewriting -/

theorem chunkFree_of_fun (f : Char → Bool) :
    ∀ (a : List Char) (nxt : Option Char),
      chunkFree (fun c _ => f c) a nxt = a.all (fun c => !f c) := by
  intro a
  induction a with
  | nil => intro nxt; rfl
  | cons c a ih =>
    intro nxt
    cases a with
    | nil => simp [chunkFree]
    | cons c2 t =>
      simp only [chunkFree, ih, List.all_cons]

theorem all_ne_of_all (p : Char → Bool) (ch : Char)
    (hne : ∀ c, p c = true → c ≠ ch) :
    ∀ (l : List Char), l.all p = true → l.all (fun c => !(c == ch)) = true := by
  intro l hl
  rw [List.all_eq_true] at hl ⊢
  intro c hc
  simpa using hne c (hl c hc)

theorem not_mem_of_all (p : Char → Bool) (ch : Char)
    (hne : ∀ c, p c = true → c ≠ ch) :
    ∀ (l : List Char), l.all p = true → ch ∉ l := by
  intro l hl hm
  exact hne ch ((List.all_eq_true.mp hl) ch hm) rfl

/-- Character facts for the restricted literal texts (alphanumeric or space). -/
def simpleText (c : Char) : Bool := c.isAlphanum || c = ' '

theorem simpleText_props (c : Char) (h : simpleText c = true) :
    c ≠ '>' ∧ c ≠ '<' ∧ c ≠ lbC ∧ c ≠ rbC ∧ c ≠ qS ∧ c ≠ qD ∧ c ≠ ':' := by
  refine ⟨?_, ?_, ?_, ?_, ?_, ?_, ?_⟩ <;> intro he <;> subst he <;> revert h <;> decide

/-- Character facts for dotted-key characters. -/
def keyChar (c : Char) : Bool := c.isAlphanum || c = '.' || c = '_'

theorem keyChar_props (c : Char) (h : keyChar c = true) :
    c ≠ '>' ∧ c ≠ '<' ∧ c ≠ lbC ∧ c ≠ rbC ∧ c ≠ qS ∧ c ≠ qD ∧ c ≠ ':' ∧ c ≠ '(' ∧ c ≠ ')' := by
  refine ⟨?_, ?_, ?_, ?_, ?_, ?_, ?_, ?_, ?_⟩ <;> intro he <;> subst he <;> revert h <;> decide

theorem chunkFree_trigChar (ch : Char) (a : List Char) (nxt : Option Char) :
    chunkFree (trigChar ch) a nxt = a.all (fun c => !(c == ch)) :=
  chunkFree_of_fun (fun c => c == ch) a nxt

theorem chunkFree_trigQuote (a : List Char) (nxt : Option Char) :
    chunkFree trigQuote a nxt = a.all (fun c => !(c == qS || c == qD)) :=
  chunkFree_of_fun (fun c => c == qS || c == qD) a nxt

theorem chunkFree_pair_single {p q c : Char} (h : c ≠ p) (nxt : Option Char) :
    chunkFree (trigPair p q) [c] nxt = true := by
  simp [chunkFree, trigPair, h]

theorem chunkFree_pair_of (p q : Char) :
    ∀ (a : List Char) (nxt : Option Char), (∀ c ∈ a, c ≠ q) →
      (∀ x, nxt = some x → x ≠ q) → chunkFree (trigPair p q) a nxt = true := by
  intro a
  induction a with
  | nil => intro nxt _ _; rfl
  | cons c a ih =>
    intro nxt H Hn
    cases a with
    | nil =>
      cases nxt with
      | none => simp [chunkFree, trigPair]
      | some x =>
        have : x ≠ q := Hn x rfl
        simp [chunkFree, trigPair, this]
    | cons c2 t =>
      have hc2 : c2 ≠ q := H c2 (by simp)
      have hrest := ih nxt (fun x hx => H x (by simp [hx])) Hn
      simp only [chunkFree, Bool.and_eq_true]
      exact ⟨by simp [trigPair, hc2], hrest⟩

theorem passText_id (q : Char) (hq : q = qS ∨ q = qD) (T K : List Char)
    (hT : T.all simpleText = true) :
    runPass (mText q T K)
        (strL "<button" ++ ('>' ::
          ((lbC :: (qS :: (T ++ (qS :: (rbC :: strL "</button"))))) ++ ['>'])))
      = strL "<button" ++ ('>' ::
          ((lbC :: (qS :: (T ++ (qS :: (rbC :: strL "</button"))))) ++ ['>'])) := by
  have hTne : T.all (fun c => !(c == '>')) = true :=
    all_ne_of_all simpleText '>' (fun c h => (simpleText_props c h).1) T hT
  have hlen : (strL "<button" ++ ('>' ::
      ((lbC :: (qS :: (T ++ (qS :: (rbC :: strL "</button"))))) ++ ['>']))).length + 1
      = T.length + 22 := by
    have h7 : (strL "<button").length = 7 := rfl
    have h8 : (strL "</button").length = 8 := rfl
    simp only [List.length_append, List.length_cons, List.length_nil, h7, h8]
    omega
  rw [runPass_eq_scan, hlen,
    scanGo_skip (mText_trig q T K) (strL "<button") (T.length + 22) [] _
      (by simp only [List.head?_cons]
          rw [chunkFree_trigChar]
          decide)]
  have hf1 : T.length + 22 - (strL "<button").length = (T.length + 14) + 1 := by
    have h7 : (strL "<button").length = 7 := rfl
    omega
  rw [hf1]
  have e1 : isWsJS lbC = false := by decide
  have e2 : ¬ (lbC = q) := by rcases hq with rfl | rfl <;> decide
  have hnone : mText q T K ((strL "<button").reverse ++ []) ('>' ::
      ((lbC :: (qS :: (T ++ (qS :: (rbC :: strL "</button"))))) ++ ['>'])) = none := by
    simp [mText, skipWs, expectC, e1, e2]
  rw [scanGo_step_none hnone (T.length + 14)]
  have hM : chunkFree (trigChar '>')
      (lbC :: (qS :: (T ++ (qS :: (rbC :: strL "</button"))))) (['>'].head?) = true := by
    rw [chunkFree_trigChar]
    have h1 : (strL "</button").all (fun c => !(c == '>')) = true := by decide
    simp only [List.all_cons, List.all_append, hTne, h1, Bool.and_true, Bool.true_and]
    decide
  rw [scanGo_skip (mText_trig q T K)
    (lbC :: (qS :: (T ++ (qS :: (rbC :: strL "</button"))))) (T.length + 14) _ ['>'] hM]
  have hf2 : T.length + 14 -
      (lbC :: (qS :: (T ++ (qS :: (rbC :: strL "</button"))))).length = 1 + 1 := by
    have h8 : (strL "</button").length = 8 := rfl
    simp only [List.length_append, List.length_cons, List.length_nil, h8]
    omega
  rw [hf2]
  have hnone2 : mText q T K
      ((lbC :: (qS :: (T ++ (qS :: (rbC :: strL "</button"))))).reverse ++
        ('>' :: ((strL "<button").reverse ++ []))) ['>'] = none := by
    simp [mText, skipWs, expectC]
  rw [scanGo_step_none hnone2 1, scanGo_nil]

theorem passExprS_fire (T K : List Char) :
    runPass (mExpr qS T K)
        (strL "<button>" ++ (lbC :: (qS :: (T ++ (qS :: (rbC :: strL "</button>"))))))
      = strL "<button>" ++ (i18nCallBr K ++ strL "</button>") := by
  have e1 : isWsJS qS = false := by decide
  have e2 : isWsJS rbC = false := by decide
  have hmatch : mExpr qS T K ((strL "<button>").reverse ++ [])
      (lbC :: (qS :: (T ++ (qS :: (rbC :: strL "</button>")))))
      = some (i18nCallBr K, strL "</button>") := by
    simp [mExpr, skipWs, expectC, e1, e2, eatLit_self_append]
  have hlen : (strL "<button>" ++
      (lbC :: (qS :: (T ++ (qS :: (rbC :: strL "</button>")))))).length + 1
      = T.length + 22 := by
    have h8 : (strL "<button>").length = 8 := rfl
    have h9 : (strL "</button>").length = 9 := rfl
    simp only [List.length_append, List.length_cons, List.length_nil, h8, h9]
    omega
  rw [runPass_eq_scan, hlen,
    scanGo_skip (mExpr_trig qS T K) (strL "<button>") (T.length + 22) [] _
      (by simp only [List.head?_cons]
          rw [chunkFree_trigChar]
          decide)]
  have hf1 : T.length + 22 - (strL "<button>").length = (T.length + 13) + 1 := by
    have h8 : (strL "<button>").length = 8 := rfl
    omega
  rw [hf1, scanGo_step_some hmatch (T.length + 13)]
  rw [scanGo_id_chunkFree (mExpr_trig qS T K) (strL "</button>")
    (by rw [chunkFree_trigChar]; decide) (T.length + 13) _]

theorem passExprD_id (T K : List Char) (hK : K.all keyChar = true) :
    runPass (mExpr qD T K)
        (strL "<button>" ++ (lbC :: ((i18nCallL K ++ [rbC]) ++ strL "</button>")))
      = strL "<button>" ++ (lbC :: ((i18nCallL K ++ [rbC]) ++ strL "</button>")) := by
  have hKne : K.all (fun c => !(c == lbC)) = true :=
    all_ne_of_all keyChar lbC (fun c h => (keyChar_props c h).2.2.1) K hK
  have e1 : isWsJS '_' = false := by decide
  have e2 : ¬ ('_' = qD) := by decide
  have hnone : mExpr qD T K ((strL "<button>").reverse ++ [])
      (lbC :: ((i18nCallL K ++ [rbC]) ++ strL "</button>")) = none := by
    have h0 : strL "__i18n(" = '_' :: strL "_i18n(" := rfl
    simp [mExpr, skipWs, expectC, i18nCallL, h0, e1, e2]
  have hlen : (strL "<button>" ++
      (lbC :: ((i18nCallL K ++ [rbC]) ++ strL "</button>"))).length + 1
      = K.length + 30 := by
    have h8 : (strL "<button>").length = 8 := rfl
    have h9 : (strL "</button>").length = 9 := rfl
    have h10 : (strL "__i18n(").length = 7 := rfl
    simp only [List.length_append, List.length_cons, List.length_nil, i18nCallL, h8, h9, h10]
    omega
  rw [runPass_eq_scan, hlen,
    scanGo_skip (mExpr_trig qD T K) (strL "<button>") (K.length + 30) [] _
      (by simp only [List.head?_cons]
          rw [chunkFree_trigChar]
          decide)]
  have hf1 : K.length + 30 - (strL "<button>").length = (K.length + 21) + 1 := by
    have h8 : (strL "<button>").length = 8 := rfl
    omega
  rw [hf1, scanGo_step_none hnone (K.length + 21)]
  rw [scanGo_id_chunkFree (mExpr_trig qD T K) ((i18nCallL K ++ [rbC]) ++ strL "</button>")
    (by rw [chunkFree_trigChar]
        have h1 : (strL "__i18n(").all (fun c => !(c == lbC)) = true := by decide
        have h2 : (strL "</button>").all (fun c => !(c == lbC)) = true := by decide
        simp only [i18nCallL, List.all_append, List.all_cons, List.all_nil, hKne, h1, h2,
          Bool.and_true, Bool.true_and]
        decide) (K.length + 21) _]

theorem passKeyLike_guarded (ak : List (List Char)) (K : List Char)
    (hk : parseKeyBody K = some (K, [])) :
    runPass (mKeyLike ak)
        ((strL "<button>" ++ (lbC :: strL "__i18n(")) ++
          (qS :: (K ++ (qS :: (')' :: (rbC :: strL "</button>"))))))
      = (strL "<button>" ++ (lbC :: strL "__i18n(")) ++
          (qS :: (K ++ (qS :: (')' :: (rbC :: strL "</button>"))))) := by
  have hparse : parseKeyBody (K ++ (qS :: (')' :: (rbC :: strL "</button>"))))
      = some (K, qS :: (')' :: (rbC :: strL "</button>"))) :=
    parseKeyBody_extend K hk qS _ (by decide) (by decide)
  have hga : guardTParen ((strL "__i18n(").reverse ++ lbC :: (strL "<button>").reverse)
      = false := by decide
  have hgb : guardI18nParen ((strL "__i18n(").reverse ++ lbC :: (strL "<button>").reverse)
      = true := by decide
  have hmatch : mKeyLike ak ((strL "<button>" ++ (lbC :: strL "__i18n(")).reverse ++ [])
      (qS :: (K ++ (qS :: (')' :: (rbC :: strL "</button>")))))
      = some (qS :: (K ++ [qS]), ')' :: (rbC :: strL "</button>")) := by
    simp [mKeyLike, hparse, hga, hgb, expectC]
  have hlen : ((strL "<button>" ++ (lbC :: strL "__i18n(")) ++
      (qS :: (K ++ (qS :: (')' :: (rbC :: strL "</button>")))))).length + 1
      = K.length + 30 := by
    have h8 : (strL "<button>").length = 8 := rfl
    have h9 : (strL "</button>").length = 9 := rfl
    have h10 : (strL "__i18n(").length = 7 := rfl
    simp only [List.length_append, List.length_cons, List.length_nil, h8, h9, h10]
    omega
  rw [runPass_eq_scan, hlen,
    scanGo_skip (mKeyLike_trig ak) (strL "<button>" ++ (lbC :: strL "__i18n("))
      (K.length + 30) [] _
      (by simp only [List.head?_cons]
          rw [chunkFree_trigQuote]
          decide)]
  have hf1 : K.length + 30 - (strL "<button>" ++ (lbC :: strL "__i18n(")).length
      = (K.length + 13) + 1 := by
    have h16 : (strL "<button>" ++ (lbC :: strL "__i18n(")).length = 16 := rfl
    omega
  rw [hf1, scanGo_step_some hmatch (K.length + 13)]
  rw [scanGo_id_chunkFree (mKeyLike_trig ak) (')' :: (rbC :: strL "</button>"))
    (by rw [chunkFree_trigQuote]; decide) (K.length + 13) _]
  simp

theorem passTCall_id (ak : List (List Char)) (K : List Char) (hK : K.all keyChar = true) :
    runPass (mTCall ak)
        ((strL "<button>" ++ (lbC :: strL "__i18n(")) ++
          (qS :: (K ++ (qS :: (')' :: (rbC :: strL "</button>"))))))
      = (strL "<button>" ++ (lbC :: strL "__i18n(")) ++
          (qS :: (K ++ (qS :: (')' :: (rbC :: strL "</button>"))))) := by
  apply runPass_id_of_chunkFree (mTCall_trig ak)
  apply chunkFree_append
  · simp only [nextOf]
    decide
  · apply chunkFree_cons
    · have h1 : (qS == 't') = false := by decide
      simp [trigPair, h1]
    · apply chunkFree_append
      · apply chunkFree_pair_of
        · intro c hc
          exact (keyChar_props c ((List.all_eq_true.mp hK) c hc)).2.2.2.2.2.2.2.1
        · intro x hx
          simp only [nextOf] at hx
          cases hx
          decide
      · decide

theorem passField_id (ak : List (List Char)) (K : List Char) (hK : K.all keyChar = true)
    (f : List Char) (q : Char) :
    runPass (mField f q ak)
        ((strL "<button>" ++ (lbC :: strL "__i18n(")) ++
          (qS :: (K ++ (qS :: (')' :: (rbC :: strL "</button>"))))))
      = (strL "<button>" ++ (lbC :: strL "__i18n(")) ++
          (qS :: (K ++ (qS :: (')' :: (rbC :: strL "</button>"))))) := by
  rw [runPass_eq_scan]
  apply scanGo_id_of_missing ':' (mField_requires_colon f q ak)
  intro hmem
  simp only [List.mem_append, List.mem_cons] at hmem
  rcases hmem with h | h | h | h
  · revert h
    decide
  · exact absurd h (by decide)
  · exact not_mem_of_all keyChar ':'
      (fun c hc => (keyChar_props c hc).2.2.2.2.2.2.1) K hK h
  · revert h
    decide

theorem rewriteWithKeys_single (T K code : List Char)
    (hT0 : T ≠ []) (hTrim : jsTrimL T = T)
    (hR : T.map Char.toLower ≠ strL "react")
    (hU : T.map Char.toLower ≠ strL "use client") :
    rewriteWithKeys [⟨"x", String.mk K, String.mk T, "", "", "", "", "", "", ""⟩] code
      = List.foldl (fun out f => runPass (mField f qD [K]) (runPass (mField f qS [K]) out))
          (runPass (mTCall [K]) (runPass (mKeyLike [K]) (rewritePair code T K))) fieldsNames := by
  have h1 : jsTrimS (String.mk T) = String.mk T := by
    unfold jsTrimS
    rw [show (String.mk T).toList = T from rfl, hTrim]
  have hc1 : ((String.mk T).toList).isEmpty = false := by
    rw [show (String.mk T).toList = T from rfl]
    cases T with
    | nil => exact absurd rfl hT0
    | cons c t => rfl
  have hc2 : (lowerS (String.mk T) = "react") = False := by
    apply eq_false
    intro he
    apply hR
    have h3 := congrArg String.toList he
    simpa using h3
  have hc3 : (lowerS (String.mk T) = "use client") = False := by
    apply eq_false
    intro he
    apply hU
    have h3 := congrArg String.toList he
    simpa using h3
  unfold rewriteWithKeys
  simp only [List.map_cons, List.map_nil, h1]
  rw [show mapFromPairs [(String.mk T, String.mk K)] = [(String.mk T, String.mk K)] from by
    simp [mapFromPairs, mapInsert]]
  simp only [List.foldl_cons, List.foldl_nil, hc1, hc2, hc3]
  simp

/-- C2 counterexample: the claim quantifies over every English text with a
store entry and every literal occurrence.  The rewrite loop skips the texts
react and use client (case-insensitively), and a literal outside the JSX
text-node and expression-wrapped positions is touched by no pass; in both
concrete cases below the output still contains the raw literal and no
canonical call. -/
theorem C2_raw_literal_not_always_rewritten :
    rewriteWithKeys [⟨"x", "brand.react", "React", "", "", "", "", "", "", ""⟩]
        (strL "<button>" ++ ((lbC :: (qS :: (strL "React" ++ [qS, rbC]))) ++ strL "</button>"))
      = strL "<button>" ++ ((lbC :: (qS :: (strL "React" ++ [qS, rbC]))) ++ strL "</button>") ∧
    rewriteWithKeys [⟨"x", "button.submit", "Submit", "", "", "", "", "", "", ""⟩]
        (strL "const x = " ++ (qS :: (strL "Submit" ++ [qS])))
      = strL "const x = " ++ (qS :: (strL "Submit" ++ [qS])) := by decide

/-- C2 amended: for every English text T (nonempty, over letters, digits and
spaces, already trimmed, and not react or use client case-insensitively) with
a store entry whose key K is a dotted key, rewriting a source whose
expression-wrapped occurrence of T sits in a JSX element yields the
brace-wrapped canonical call referencing K in that position, and the raw
literal is gone: the full rewrite pipeline maps button-T-button to
button-call-button exactly. -/
theorem C2_expression_literal_rewrite (T K : List Char)
    (hT0 : T ≠ [])
    (hT : T.all simpleText = true)
    (hTrim : jsTrimL T = T)
    (hR : T.map Char.toLower ≠ strL "react")
    (hU : T.map Char.toLower ≠ strL "use client")
    (hK : K.all keyChar = true)
    (hk : parseKeyBody K = some (K, [])) :
    rewriteWithKeys [⟨"x", String.mk K, String.mk T, "", "", "", "", "", "", ""⟩]
        (strL "<button>" ++ ((lbC :: (qS :: (T ++ [qS, rbC]))) ++ strL "</button>"))
      = strL "<button>" ++ (i18nCallBr K ++ strL "</button>") := by
  have hs0 : strL "<button>" ++ ((lbC :: (qS :: (T ++ [qS, rbC]))) ++ strL "</button>")
      = strL "<button" ++ ('>' ::
          ((lbC :: (qS :: (T ++ (qS :: (rbC :: strL "</button"))))) ++ ['>'])) := by
    simp [List.append_assoc]
    rfl
  have hs1 : strL "<button" ++ ('>' ::
        ((lbC :: (qS :: (T ++ (qS :: (rbC :: strL "</button"))))) ++ ['>']))
      = strL "<button>" ++ (lbC :: (qS :: (T ++ (qS :: (rbC :: strL "</button>"))))) := by
    simp [List.append_assoc]
    rfl
  have hs2 : strL "<button>" ++ (i18nCallBr K ++ strL "</button>")
      = strL "<button>" ++ (lbC :: ((i18nCallL K ++ [rbC]) ++ strL "</button>")) := by
    simp [i18nCallBr]
  have hs3 : strL "<button>" ++ (lbC :: ((i18nCallL K ++ [rbC]) ++ strL "</button>"))
      = (strL "<button>" ++ (lbC :: strL "__i18n(")) ++
          (qS :: (K ++ (qS :: (')' :: (rbC :: strL "</button>"))))) := by
    simp [i18nCallL, List.append_assoc]
  rw [rewriteWithKeys_single T K _ hT0 hTrim hR hU]
  rw [show rewritePair
      (strL "<button>" ++ ((lbC :: (qS :: (T ++ [qS, rbC]))) ++ strL "</button>")) T K
      = strL "<button>" ++ (i18nCallBr K ++ strL "</button>") from by
    unfold rewritePair
    rw [hs0, passText_id qS (Or.inl rfl) T K hT, passText_id qD (Or.inr rfl) T K hT,
      hs1, passExprS_fire T K, hs2, passExprD_id T K hK, ← hs2]]
  rw [hs2, hs3, passKeyLike_guarded [K] K hk, passTCall_id [K] K hK]
  have hfld := passField_id [K] K hK
  simp only [fieldsNames, List.foldl_cons, List.foldl_nil, hfld]

/-- Witness for C2 at the specification scenario: text Submit with store key
button.submit rewrites to the canonical call. -/
theorem C2_expression_literal_rewrite_witness :
    (strL "Submit" ≠ [] ∧ (strL "Submit").all simpleText = true ∧
      jsTrimL (strL "Submit") = strL "Submit" ∧
      (strL "button.submit").all keyChar = true ∧
      parseKeyBody (strL "button.submit") = some (strL "button.submit", [])) ∧
    rewriteWithKeys
        [⟨"x", String.mk (strL "button.submit"), String.mk (strL "Submit"),
          "", "", "", "", "", "", ""⟩]
        (strL "<button>" ++ ((lbC :: (qS :: (strL "Submit" ++ [qS, rbC]))) ++ strL "</button>"))
      = strL "<button>" ++ (i18nCallBr (strL "button.submit") ++ strL "</button>") :=
  ⟨⟨by decide, by decide, by decide, by decide, by decide⟩,
   C2_expression_literal_rewrite (strL "Submit") (strL "button.submit")
     (by decide) (by decide) (by decide) (by decide) (by decide) (by decide) (by decide)⟩

/-! ## Key minting (generateKeyFromText and the collision loop) -/

/-- Character class [a-z0-9], the complement of the replaced class after
toLowerCase. -/
def isLowerAlnum (c : Char) : Bool := c.isLower || c.isDigit

/-- Embedding of .replace with the run regex: copy kept characters, emit one
dot per maximal run of other characters.  The flag records whether we are
inside such a run. -/
def squashGo : Bool → List Char → List Char
  | _, [] => []
  | inRun, c :: t =>
    if isLowerAlnum c then c :: squashGo false t
    else if inRun then squashGo true t
    else '.' :: squashGo true t

/-- Embedding of .replace trimming the leading and trailing dot runs. -/
def trimDots (l : List Char) : List Char :=
  ((l.dropWhile (fun c => c = '.')).reverse.dropWhile (fun c => c = '.')).reverse

/-- Embedding of generateKeyFromText: lowercase, collapse runs of
non-alphanumerics to single dots, trim dots, truncate the slug to 40, prefix
auto. -/
def generateKeyFromText (text : String) : String :=
  String.mk (strL "auto." ++ (trimDots (squashGo false (text.toList.map Char.toLower))).take 40)

/-- Collapse consecutive dots, used by the specification-worded definition. -/
def dedupDots : List Char → List Char
  | [] => []
  | [c] => [c]
  | c :: c2 :: t => if c = '.' ∧ c2 = '.' then dedupDots (c2 :: t) else c :: dedupDots (c2 :: t)

/-- Modelled from the spec wording: lower-case the text, replace every
non-alphanumeric character by a dot and collapse each run to a single dot,
trim leading and trailing dots, truncate to 40 characters, prefix auto. -/
def specMintKey (text : String) : String :=
  String.mk (strL "auto." ++ (trimDots (dedupDots ((text.toList.map Char.toLower).map
    (fun c => if isLowerAlnum c then c else '.')))).take 40)

theorem dedupDots_cons_ne {c : Char} (h : c ≠ '.') (x : List Char) :
    dedupDots (c :: x) = c :: dedupDots x := by
  cases x with
  | nil => rfl
  | cons c2 t => simp [dedupDots, h]

theorem dedupDots_cons_of_snd {c c2 : Char} (h2 : c2 ≠ '.') (t : List Char) :
    dedupDots (c :: c2 :: t) = c :: dedupDots (c2 :: t) := by
  simp [dedupDots, h2]

theorem squashGo_eq_dedup : ∀ (l : List Char),
    squashGo false l = dedupDots (l.map (fun c => if isLowerAlnum c then c else '.')) ∧
    '.' :: squashGo true l
      = dedupDots ('.' :: l.map (fun c => if isLowerAlnum c then c else '.')) := by
  intro l
  induction l with
  | nil => exact ⟨rfl, rfl⟩
  | cons c t ih =>
    by_cases hc : isLowerAlnum c = true
    · constructor
      · rw [show squashGo false (c :: t) = c :: squashGo false t from by simp [squashGo, hc]]
        rw [List.map_cons, if_pos hc, dedupDots_cons_ne (by
          intro he
          subst he
          exact absurd hc (by decide)) _]
        rw [ih.1]
      · rw [show squashGo true (c :: t) = c :: squashGo false t from by simp [squashGo, hc]]
        rw [List.map_cons, if_pos hc]
        have hcne : c ≠ '.' := by
          intro he
          subst he
          exact absurd hc (by decide)
        rw [dedupDots_cons_of_snd hcne]
        rw [dedupDots_cons_ne hcne]
        rw [ih.1]
    · rw [Bool.not_eq_true] at hc
      constructor
      · rw [show squashGo false (c :: t) = '.' :: squashGo true t from by simp [squashGo, hc]]
        rw [List.map_cons, if_neg (by simp [hc])]
        exact ih.2
      · rw [show squashGo true (c :: t) = squashGo true t from by simp [squashGo, hc]]
        rw [List.map_cons, if_neg (by simp [hc])]
        rw [show dedupDots ('.' :: '.' :: List.map _ t)
            = dedupDots ('.' :: List.map (fun c => if isLowerAlnum c then c else '.') t) from by
          simp [dedupDots]]
        exact ih.2

theorem generateKeyFromText_eq_spec (text : String) :
    generateKeyFromText text = specMintKey text := by
  unfold generateKeyFromText specMintKey
  rw [(squashGo_eq_dedup (text.toList.map Char.toLower)).1]

/-- The while loop that suffixes .2, .3, ... until the key is unused.  The
fuel bounds the search; existing.length + 2 candidates always suffice since
the candidates are pairwise distinct and the table is finite. -/
def mintLoopGo (existing : List LocalizationEntry) (base : String) :
    Nat → Nat → String → String
  | 0, _, cur => cur
  | fuel + 1, i, cur =>
    if existing.any (fun e => e.key = cur) then
      mintLoopGo existing base fuel (i + 1) (base ++ "." ++ toString (i + 1))
    else cur

/-- Embedding of the collision-avoidance loop of ensureLocalizationsForCode. -/
def mintSuffix (existing : List LocalizationEntry) (base : String) : String :=
  mintLoopGo existing base (existing.length + 2) 1 base

/-- The alias table of ensureLocalizationsForCode (common nav labels). -/
def aliasToKey : List (String × String) :=
  [("home", "navigation.home"), ("about", "navigation.about"),
   ("services", "navigation.services"), ("contact", "navigation.contact")]

/-- The exact English-value map built at the start of the pass. -/
def enMapOf (existing : List LocalizationEntry) : List (String × String) :=
  mapFromPairs (existing.map (fun e => (jsTrimS e.en, e.key)))

/-- The case-insensitive English-value map, never updated during the loop. -/
def enLowerMapOf (existing : List LocalizationEntry) : List (String × String) :=
  mapFromPairs (existing.map (fun e => (lowerS (jsTrimS e.en), e.key)))

/-- Mutable state of the candidate loop: the local copy of the table, the
exact map (updated by set) and the queued new keys. -/
structure MintState where
  existing : List LocalizationEntry
  enToKey : List (String × String)
  newKeys : List (String × String)

/-- One iteration of the candidate loop: alias first, then exact match, then
case-insensitive match; otherwise mint a key, create the entry (pushed into
the local copy, the paired createLocalization call persists it) and queue it
for translation. -/
def resolveCandidate (enLowerToKey : List (String × String)) (st : MintState)
    (text : String) : String × MintState :=
  match (match lookupA aliasToKey (lowerS text) with
         | some k => some k
         | none => match lookupA st.enToKey text with
           | some k => some k
           | none => lookupA enLowerToKey (lowerS text)) with
  | some k =>
    (k, if (lookupA st.enToKey text).isNone
        then { st with enToKey := mapInsert st.enToKey text k } else st)
  | none =>
    (mintSuffix st.existing (generateKeyFromText text),
     { existing := st.existing ++
         [⟨"", mintSuffix st.existing (generateKeyFromText text), text,
           "", "", "", "", "", "", ""⟩],
       enToKey := mapInsert st.enToKey text (mintSuffix st.existing (generateKeyFromText text)),
       newKeys := st.newKeys ++ [(mintSuffix st.existing (generateKeyFromText text), text)] })

theorem mintLoopGo_free {existing : List LocalizationEntry} {base cur : String}
    (h : existing.any (fun e => e.key = cur) = false) (fuel i : Nat) :
    mintLoopGo existing base (fuel + 1) i cur = cur := by
  simp [mintLoopGo, h]

theorem mintLoopGo_used {existing : List LocalizationEntry} {base cur : String}
    (h : existing.any (fun e => e.key = cur) = true) (fuel i : Nat) :
    mintLoopGo existing base (fuel + 1) i cur
      = mintLoopGo existing base fuel (i + 1) (base ++ "." ++ toString (i + 1)) := by
  simp [mintLoopGo, h]

theorem any_key_false_of_all_ne {existing : List LocalizationEntry} {k : String}
    (h : existing.all (fun e => e.key ≠ k) = true) :
    existing.any (fun e => e.key = k) = false := by
  rw [Bool.eq_false_iff]
  intro hc
  rw [List.any_eq_true] at hc
  obtain ⟨x, hx, hp⟩ := hc
  have h2 := (List.all_eq_true.mp h) x hx
  simp only [decide_eq_true_eq] at hp h2
  exact h2 hp

theorem lookupA_cons (q : String × String) (m : List (String × String)) (k : String) :
    lookupA (q :: m) k = if (q.1 == k) = true then some q.2 else lookupA m k := by
  unfold lookupA
  cases hq : (q.1 == k) with
  | true => simp [List.find?_cons, hq]
  | false => simp [List.find?_cons, hq]

theorem lookupA_map_replace {m : List (String × String)} {k1 k2 v : String} (h : k2 ≠ k1) :
    lookupA (m.map (fun p => if p.1 == k1 then (p.1, v) else p)) k2 = lookupA m k2 := by
  induction m with
  | nil => rfl
  | cons p t ih =>
    rw [List.map_cons, lookupA_cons, lookupA_cons]
    have hif1 : (if (p.1 == k1) = true then (p.1, v) else p).1 = p.1 := by split <;> rfl
    rw [hif1]
    by_cases hpk : (p.1 == k2) = true
    · rw [if_pos hpk, if_pos hpk]
      have hk1 : (p.1 == k1) = false := by
        rw [beq_iff_eq] at hpk
        simp [beq_iff_eq, hpk, h]
      rw [if_neg (by simp [hk1])]
    · rw [if_neg hpk, if_neg hpk]
      exact ih

theorem lookupA_append_ne {m : List (String × String)} {k1 k2 v : String} (h : k2 ≠ k1) :
    lookupA (m ++ [(k1, v)]) k2 = lookupA m k2 := by
  induction m with
  | nil =>
    rw [List.nil_append, lookupA_cons]
    have hne : ¬ ((((k1, v) : String × String).1 == k2) = true) := by
      simp only [beq_iff_eq]
      exact fun he => h he.symm
    rw [if_neg hne]
  | cons p t ih =>
    rw [List.cons_append, lookupA_cons, lookupA_cons]
    by_cases hpk : (p.1 == k2) = true
    · rw [if_pos hpk, if_pos hpk]
    · rw [if_neg hpk, if_neg hpk]
      exact ih

theorem lookupA_insert_ne {m : List (String × String)} {k1 k2 v : String} (h : k2 ≠ k1) :
    lookupA (mapInsert m k1 v) k2 = lookupA m k2 := by
  unfold mapInsert
  split
  · exact lookupA_map_replace h
  · exact lookupA_append_ne h

theorem string_append_dot_two (x : String) : x ++ "." ++ "2" = x ++ ".2" := by
  apply String.ext
  simp only [String.data_append, List.append_assoc]
  rfl

theorem string_ne_append_dot_two (x : String) : x ≠ x ++ ".2" := by
  intro he
  have h1 := congrArg String.data he
  rw [String.data_append] at h1
  have h2 := congrArg List.length h1
  rw [List.length_append] at h2
  simp at h2

/-- C3: the minted key equals the auto slug of the text (squashed runs of
non-alphanumerics, trimmed dots, 40-char cap, auto prefix), and on a base
collision the loop suffixes .2, so two distinct texts with the same base
slug receive base and base.2, both queued with their original English. -/
theorem C3_mint_and_collision
    (t1 t2 : String) (existing0 : List LocalizationEntry)
    (enL : List (String × String))
    (ha1 : lookupA aliasToKey (lowerS t1) = none)
    (ha2 : lookupA aliasToKey (lowerS t2) = none)
    (he1 : lookupA (enMapOf existing0) t1 = none)
    (he2 : lookupA (enMapOf existing0) t2 = none)
    (hl1 : lookupA enL (lowerS t1) = none)
    (hl2 : lookupA enL (lowerS t2) = none)
    (hne : t2 ≠ t1)
    (hsame : generateKeyFromText t2 = generateKeyFromText t1)
    (hfree1 : existing0.all (fun e => e.key ≠ generateKeyFromText t1) = true)
    (hfree2 : existing0.all (fun e => e.key ≠ generateKeyFromText t1 ++ ".2") = true) :
    (∀ text : String, generateKeyFromText text = specMintKey text) ∧
    (resolveCandidate enL ⟨existing0, enMapOf existing0, []⟩ t1).1
      = generateKeyFromText t1 ∧
    (resolveCandidate enL (resolveCandidate enL ⟨existing0, enMapOf existing0, []⟩ t1).2 t2).1
      = generateKeyFromText t1 ++ ".2" ∧
    ((resolveCandidate enL (resolveCandidate enL ⟨existing0, enMapOf existing0, []⟩ t1).2 t2).2).newKeys
      = [(generateKeyFromText t1, t1), (generateKeyFromText t1 ++ ".2", t2)] := by
  have hb1 : mintSuffix existing0 (generateKeyFromText t1) = generateKeyFromText t1 := by
    unfold mintSuffix
    exact mintLoopGo_free (any_key_false_of_all_ne hfree1) (existing0.length + 1) 1
  have hst1 : resolveCandidate enL ⟨existing0, enMapOf existing0, []⟩ t1
      = (generateKeyFromText t1,
         ⟨existing0 ++ [⟨"", generateKeyFromText t1, t1, "", "", "", "", "", "", ""⟩],
          mapInsert (enMapOf existing0) t1 (generateKeyFromText t1),
          [(generateKeyFromText t1, t1)]⟩) := by
    unfold resolveCandidate
    rw [ha1]
    simp only [he1, hl1, hb1, List.nil_append]
  have hany1 : (existing0 ++
        [(⟨"", generateKeyFromText t1, t1, "", "", "", "", "", "", ""⟩ : LocalizationEntry)]).any
        (fun e => e.key = generateKeyFromText t1) = true := by
    simp only [List.any_append, List.any_cons, List.any_nil, Bool.or_false]
    simp
  have hany2 : (existing0 ++
        [(⟨"", generateKeyFromText t1, t1, "", "", "", "", "", "", ""⟩ : LocalizationEntry)]).any
        (fun e => e.key = generateKeyFromText t1 ++ ".2") = false := by
    simp only [List.any_append, List.any_cons, List.any_nil, Bool.or_false,
      any_key_false_of_all_ne hfree2, Bool.false_or]
    simp [string_ne_append_dot_two]
  have hb2 : mintSuffix (existing0 ++
        [(⟨"", generateKeyFromText t1, t1, "", "", "", "", "", "", ""⟩ : LocalizationEntry)])
        (generateKeyFromText t2) = generateKeyFromText t1 ++ ".2" := by
    rw [hsame]
    unfold mintSuffix
    have hlen : (existing0 ++
        [(⟨"", generateKeyFromText t1, t1, "", "", "", "", "", "", ""⟩ : LocalizationEntry)]).length + 2
        = (existing0.length + 2) + 1 := by
      simp [List.length_append]
    rw [hlen, mintLoopGo_used hany1 (existing0.length + 2) 1]
    have ht2 : toString (1 + 1 : Nat) = "2" := rfl
    rw [ht2, string_append_dot_two]
    have hfu : existing0.length + 2 = (existing0.length + 1) + 1 := rfl
    rw [hfu, mintLoopGo_free hany2 (existing0.length + 1) 2]
  have he2b : lookupA (mapInsert (enMapOf existing0) t1 (generateKeyFromText t1)) t2 = none := by
    rw [lookupA_insert_ne hne]
    exact he2
  refine ⟨generateKeyFromText_eq_spec, ?_, ?_, ?_⟩
  · rw [hst1]
  · rw [hst1]
    unfold resolveCandidate
    rw [ha2]
    simp only [he2b, hl2, hb2]
  · rw [hst1]
    unfold resolveCandidate
    rw [ha2]
    simp only [he2b, hl2, hb2]
    rfl

theorem C3_mint_and_collision_witness :
    generateKeyFromText "Hello!" = "auto.hello" ∧
    (resolveCandidate [] ⟨[], enMapOf [], []⟩ "Hello!").1 = "auto.hello" ∧
    (resolveCandidate [] (resolveCandidate [] ⟨[], enMapOf [], []⟩ "Hello!").2 "HELLO").1
      = "auto.hello.2" ∧
    ((resolveCandidate [] (resolveCandidate [] ⟨[], enMapOf [], []⟩ "Hello!").2 "HELLO").2).newKeys
      = [("auto.hello", "Hello!"), ("auto.hello.2", "HELLO")] := by
  have h := C3_mint_and_collision "Hello!" "HELLO" [] [] (by rfl) (by rfl) (by rfl)
    (by rfl) (by rfl) (by rfl) (by decide) (by rfl) (by rfl) (by rfl)
  obtain ⟨_, h1, h2, h3⟩ := h
  refine ⟨rfl, ?_, ?_, ?_⟩
  · rw [h1]
    rfl
  · rw [h2]
    rfl
  · rw [h3]
    rfl

/-! ## Batch translation merge (the newKeys update loop) -/

/-- Shape of a successful /api/translate response body: one object per
locale, each keyed by the original English text. -/
structure TranslationsResponse where
  es : List (String × String)
  fr : List (String × String)
  de : List (String × String)
  ja : List (String × String)
  zh : List (String × String)

/-- The truthiness test `trans.loc?.[item.en]`: the provider value counts
only when the locale object has the English text and the string is
non-empty. -/
def lookupNE (m : List (String × String)) (en : String) : Option String :=
  match lookupA m en with
  | some v => if v = "" then none else some v
  | none => none

/-- The updates object assembled for one item of newKeys: one optional SET
per locale, guarded by the truthiness test. -/
def buildUpdates (trans : TranslationsResponse) (en : String) : TransUpdates :=
  ⟨lookupNE trans.es en, lookupNE trans.fr en, lookupNE trans.de en,
   lookupNE trans.ja en, lookupNE trans.zh en⟩

/-- Object.keys(updates).length > 0. -/
def hasUpdates (u : TransUpdates) : Bool :=
  u.es.isSome || u.fr.isSome || u.de.isSome || u.ja.isSome || u.zh.isSome

/-- The per-item update loop run after a successful parse of the response. -/
def mergeTranslations (now : String) (trans : TranslationsResponse)
    (newKeys : List (String × String)) (st : DBState) : DBState :=
  newKeys.foldl (fun acc item =>
    if hasUpdates (buildUpdates trans item.2) then
      updateLocalizationByKey now item.1 (buildUpdates trans item.2) acc
    else acc) st

/-- The row update performed by one matching SET batch (derived form of the
updateLocalizationByKey row function, used to state the merge theorem). -/
def applyTr (now : String) (tr : TransUpdates) (x : LocalizationEntry) : LocalizationEntry :=
  { x with
      es := tr.es.getD x.es
      fr := tr.fr.getD x.fr
      de := tr.de.getD x.de
      ja := tr.ja.getD x.ja
      zh := tr.zh.getD x.zh
      updated_at := now }

/-- Derived per-entry description of the whole merge: the first newKeys item
whose key matches the row decides the update; rows matching no item are left
alone. -/
def mergeEntry (now : String) (trans : TranslationsResponse)
    (newKeys : List (String × String)) (x : LocalizationEntry) : LocalizationEntry :=
  match newKeys.find? (fun item => item.1 == x.key) with
  | some item =>
    if hasUpdates (buildUpdates trans item.2) then applyTr now (buildUpdates trans item.2) x
    else x
  | none => x

theorem updateByKey_entries_of_has {tr : TransUpdates} (h : hasUpdates tr = true)
    (now k : String) (st : DBState) :
    (updateLocalizationByKey now k tr st).entries
      = st.entries.map (fun x => if x.key = k then applyTr now tr x else x) := by
  have hg : (tr.es.isNone && tr.fr.isNone && tr.de.isNone && tr.ja.isNone && tr.zh.isNone)
      = false := by
    rcases tr with ⟨e, f, d, j, z⟩
    simp only [hasUpdates] at h
    cases e <;> cases f <;> cases d <;> cases j <;> cases z <;> simp_all
  unfold updateLocalizationByKey
  simp only [hg, Bool.false_eq_true, if_false]
  rfl

theorem find?_keys_none {rest : List (String × String)} {k : String}
    (h : k ∉ rest.map Prod.fst) :
    rest.find? (fun it => it.1 == k) = none := by
  rw [List.find?_eq_none]
  intro it hit
  simp only [beq_iff_eq]
  intro he
  exact h (he ▸ List.mem_map_of_mem Prod.fst hit)

theorem find?_keys_of_mem_nodup {l : List (String × String)} {k en : String}
    (hm : (k, en) ∈ l) (hnd : (l.map Prod.fst).Nodup) :
    l.find? (fun it => it.1 == k) = some (k, en) := by
  induction l with
  | nil => cases hm
  | cons p t ih =>
    rw [List.map_cons] at hnd
    have hcons := List.nodup_cons.mp hnd
    rcases List.mem_cons.mp hm with he | ht
    · rw [← he, List.find?_cons]
      simp
    · have hk : k ∈ t.map Prod.fst := List.mem_map_of_mem Prod.fst ht
      have hne : (p.1 == k) = false := by
        simp only [beq_eq_false_iff_ne, ne_eq]
        intro he2
        exact hcons.1 (he2 ▸ hk)
      rw [List.find?_cons, hne]
      exact ih ht hcons.2

theorem mergeTranslations_cons (now : String) (trans : TranslationsResponse)
    (item : String × String) (rest : List (String × String)) (st : DBState) :
    mergeTranslations now trans (item :: rest) st
      = mergeTranslations now trans rest
          (if hasUpdates (buildUpdates trans item.2) then
            updateLocalizationByKey now item.1 (buildUpdates trans item.2) st
          else st) := rfl

theorem mergeEntry_cons_eq {now : String} {trans : TranslationsResponse}
    {item : String × String} {rest : List (String × String)} {x : LocalizationEntry}
    (hk : x.key = item.1) :
    mergeEntry now trans (item :: rest) x
      = if hasUpdates (buildUpdates trans item.2) then
          applyTr now (buildUpdates trans item.2) x
        else x := by
  unfold mergeEntry
  rw [List.find?_cons]
  have ht : (item.1 == x.key) = true := by simp [hk]
  rw [ht]

theorem mergeEntry_cons_ne {now : String} {trans : TranslationsResponse}
    {item : String × String} {rest : List (String × String)} {x : LocalizationEntry}
    (hk : x.key ≠ item.1) :
    mergeEntry now trans (item :: rest) x = mergeEntry now trans rest x := by
  unfold mergeEntry
  rw [List.find?_cons]
  have ht : (item.1 == x.key) = false := by
    simp only [beq_eq_false_iff_ne, ne_eq]
    exact fun he => hk he.symm
  rw [ht]

theorem mergeEntry_none {now : String} {trans : TranslationsResponse}
    {newKeys : List (String × String)} {x : LocalizationEntry}
    (h : ∀ p ∈ newKeys, p.1 ≠ x.key) :
    mergeEntry now trans newKeys x = x := by
  unfold mergeEntry
  have hf : newKeys.find? (fun it => it.1 == x.key) = none := by
    rw [List.find?_eq_none]
    intro it hit
    simp only [beq_iff_eq]
    exact h it hit
  rw [hf]

theorem mergeTranslations_entries (now : String) (trans : TranslationsResponse) :
    ∀ (newKeys : List (String × String)), (newKeys.map Prod.fst).Nodup →
      ∀ (st : DBState),
        (mergeTranslations now trans newKeys st).entries
          = st.entries.map (mergeEntry now trans newKeys) := by
  intro newKeys
  induction newKeys with
  | nil =>
    intro _ st
    have h : ∀ x ∈ st.entries, mergeEntry now trans [] x = x := fun x _ =>
      mergeEntry_none (by intro p hp; cases hp)
    have h2 : st.entries.map (mergeEntry now trans []) = st.entries := by
      rw [List.map_congr_left h]
      exact List.map_id st.entries
    exact h2.symm
  | cons item rest ih =>
    intro hnd st
    rw [List.map_cons] at hnd
    have hcons := List.nodup_cons.mp hnd
    by_cases hU : hasUpdates (buildUpdates trans item.2) = true
    · rw [mergeTranslations_cons, if_pos hU,
        ih hcons.2 (updateLocalizationByKey now item.1 (buildUpdates trans item.2) st),
        updateByKey_entries_of_has hU, List.map_map]
      apply List.map_congr_left
      intro x _
      show mergeEntry now trans rest
            (if x.key = item.1 then applyTr now (buildUpdates trans item.2) x else x)
          = mergeEntry now trans (item :: rest) x
      by_cases hk : x.key = item.1
      · rw [if_pos hk, mergeEntry_cons_eq hk, if_pos hU]
        apply mergeEntry_none
        intro p hp he
        have hkeep : (applyTr now (buildUpdates trans item.2) x).key = x.key := rfl
        rw [hkeep, hk] at he
        exact hcons.1 (he ▸ List.mem_map_of_mem Prod.fst hp)
      · rw [if_neg hk]
        exact (mergeEntry_cons_ne hk).symm
    · rw [mergeTranslations_cons, if_neg hU, ih hcons.2 st]
      apply List.map_congr_left
      intro x _
      by_cases hk : x.key = item.1
      · rw [mergeEntry_cons_eq hk, if_neg hU]
        apply mergeEntry_none
        intro p hp he
        rw [hk] at he
        exact hcons.1 (he ▸ List.mem_map_of_mem Prod.fst hp)
      · exact (mergeEntry_cons_ne hk).symm

theorem mergeEntry_of_find {now : String} {trans : TranslationsResponse}
    {newKeys : List (String × String)} {x : LocalizationEntry} {en : String}
    (hf : newKeys.find? (fun it => it.1 == x.key) = some (x.key, en)) :
    mergeEntry now trans newKeys x
      = if hasUpdates (buildUpdates trans en) then applyTr now (buildUpdates trans en) x
        else x := by
  unfold mergeEntry
  rw [hf]

theorem hasUpdates_false {u : TransUpdates} (h : hasUpdates u = false) :
    u = ⟨none, none, none, none, none⟩ := by
  rcases u with ⟨e, f, d, j, z⟩
  cases e <;> cases f <;> cases d <;> cases j <;> cases z <;> simp_all [hasUpdates]

/-- C7: after a successful parse the update loop rewrites each row by the
first matching newKeys item; a locale field is set to the provider value
exactly when the truthiness test passes (value present and non-empty),
otherwise the field keeps its old value, and rows matching no minted key are
untouched; the truthiness test fails exactly on a missing or empty value. -/
theorem C7_translation_merge (now : String) (trans : TranslationsResponse)
    (newKeys : List (String × String)) (st : DBState)
    (hnd : (newKeys.map Prod.fst).Nodup) :
    (mergeTranslations now trans newKeys st).entries
      = st.entries.map (mergeEntry now trans newKeys) ∧
    (∀ k en x, (k, en) ∈ newKeys → x.key = k →
        (mergeEntry now trans newKeys x).es = (lookupNE trans.es en).getD x.es ∧
        (mergeEntry now trans newKeys x).fr = (lookupNE trans.fr en).getD x.fr ∧
        (mergeEntry now trans newKeys x).de = (lookupNE trans.de en).getD x.de ∧
        (mergeEntry now trans newKeys x).ja = (lookupNE trans.ja en).getD x.ja ∧
        (mergeEntry now trans newKeys x).zh = (lookupNE trans.zh en).getD x.zh) ∧
    (∀ x, (∀ p ∈ newKeys, p.1 ≠ x.key) → mergeEntry now trans newKeys x = x) ∧
    (∀ m en, lookupNE m en = none ↔ (lookupA m en = none ∨ lookupA m en = some "")) := by
  refine ⟨mergeTranslations_entries now trans newKeys hnd st, ?_, ?_, ?_⟩
  · intro k en x hm hk
    subst hk
    have hf := find?_keys_of_mem_nodup hm hnd
    rw [mergeEntry_of_find hf]
    cases hU : hasUpdates (buildUpdates trans en) with
    | true =>
      rw [if_pos rfl]
      exact ⟨rfl, rfl, rfl, rfl, rfl⟩
    | false =>
      rw [if_neg (by simp)]
      have h0 : buildUpdates trans en = ⟨none, none, none, none, none⟩ := hasUpdates_false hU
      have he : lookupNE trans.es en = none := congrArg TransUpdates.es h0
      have hfv : lookupNE trans.fr en = none := congrArg TransUpdates.fr h0
      have hd : lookupNE trans.de en = none := congrArg TransUpdates.de h0
      have hj : lookupNE trans.ja en = none := congrArg TransUpdates.ja h0
      have hz : lookupNE trans.zh en = none := congrArg TransUpdates.zh h0
      rw [he, hfv, hd, hj, hz]
      exact ⟨rfl, rfl, rfl, rfl, rfl⟩
  · intro x hx
    exact mergeEntry_none hx
  · intro m en
    unfold lookupNE
    cases h : lookupA m en with
    | none => simp
    | some v =>
      by_cases hv : v = "" <;> simp [hv]

theorem C7_translation_merge_witness :
    ((([("auto.sign.up.free", "Sign up free")] : List (String × String)).map Prod.fst).Nodup) ∧
    (mergeTranslations "t1"
        ⟨[("Sign up free", "Regístrate gratis")], [], [], [], []⟩
        [("auto.sign.up.free", "Sign up free")]
        ⟨[⟨"id1", "auto.sign.up.free", "Sign up free", "", "", "", "", "", "t0", "t0"⟩],
          none, none⟩).entries
      = [⟨"id1", "auto.sign.up.free", "Sign up free", "Regístrate gratis", "", "", "", "",
          "t0", "t1"⟩] := by
  refine ⟨by decide, ?_⟩
  have h := C7_translation_merge "t1"
      ⟨[("Sign up free", "Regístrate gratis")], [], [], [], []⟩
      [("auto.sign.up.free", "Sign up free")]
      ⟨[⟨"id1", "auto.sign.up.free", "Sign up free", "", "", "", "", "", "t0", "t0"⟩],
        none, none⟩
      (by decide)
  rw [h.1]
  rfl
